import Mathlib

/-
  Verification development for the Bristol Stock Exchange repository.

  Two matching engines are embedded:
  - namespace BSE1 models src/BSE.py (class OrderbookHalf / Orderbook / Exchange);
  - namespace BSE2 models src/ZhenZhang/source/BSE2.py
    (class Orderbook_half / Orderbook / Exchange) and
    src/ZhenZhang/source/BSE2_msg_classes.py.

  Modelling conventions (stated once here):
  - Python ints become Nat (prices, quantities are positive ints in a bounded
    system range per the source's numeric policy); where a sign matters the
    embedding uses Int.
  - Trader ids (Python strings such as 'B00') and pool-id strings are modelled
    as Nat codes; the code only ever compares them for equality or uses them
    as dictionary keys, except as the third component of the per-price-level
    sort key, where any linear order is faithful.
  - Python float timestamps are modelled as Nat: the code only compares them.
  - Python dicts are modelled as association lists; dict update replaces the
    value in place (CPython 3.7+ / insertion-order semantics), dict insert
    appends.
  - A Python hard failure (sys.exit, or an AttributeError raised by accessing
    a field that does not exist) is modelled with Except.error; every normal
    return is Except.ok.
-/

/-- Side of the book: order type 'Bid' or 'Ask' in the source. -/
inductive Side where
  | Bid : Side
  | Ask : Side
deriving DecidableEq, Repr

namespace BSE2

/-- Order styles handled by the embedded parts of BSE2.py. -/
inductive OStyle where
  | LIM : OStyle
  | GFD : OStyle
  | MKT : OStyle
  | IOC : OStyle
  | FOK : OStyle
  | AON : OStyle
  | CAN : OStyle
deriving DecidableEq, Repr

/-- An order as submitted to the BSE2 exchange (BSE2_msg_classes.Order), with
the fields the matching engine reads: trader id, side, style, price, quantity,
arrival time and the exchange-assigned order id. -/
structure ZOrder where
  tid : Nat
  otype : Side
  ostyle : OStyle
  price : Nat
  qty : Nat
  time : Nat
  orderid : Nat
deriving DecidableEq, Repr

/-- One row of a price level of Orderbook_half.lob: the list
[order.time, order.qty, order.tid, order.orderid] built by build_lob. -/
structure Entry where
  time : Nat
  qty : Nat
  tid : Nat
  oid : Nat
deriving DecidableEq, Repr

/-- Python list comparison on [time, qty, tid, oid] rows: lexicographic. -/
def entryLEb (a b : Entry) : Bool :=
  if a.time < b.time then true
  else if b.time < a.time then false
  else if a.qty < b.qty then true
  else if b.qty < a.qty then false
  else if a.tid < b.tid then true
  else if b.tid < a.tid then false
  else a.oid ≤ b.oid

end BSE2

/-- Insertion step of a stable insertion sort by a Bool comparison
(models Python's stable list.sort / sorted). -/
def insG {α : Type} (le : α → α → Bool) (e : α) : List α → List α
  | [] => [e]
  | x :: xs => if le e x then e :: x :: xs else x :: insG le e xs

/-- Stable sort by a Bool comparison. -/
def sortG {α : Type} (le : α → α → Bool) : List α → List α
  | [] => []
  | x :: xs => insG le x (sortG le xs)

namespace BSE2

/-- orderlist.sort() of BSE2.build_lob: sort one price level's rows by
[time, qty, tid, oid]. -/
def sortE : List Entry → List Entry :=
  sortG entryLEb

/-- Price comparison used when sorting the price levels best-first:
bids descend (lob.sort(reverse=True)), asks ascend (lob.sort()). -/
def priceLEb (bk : Side) (p q : Nat) : Bool :=
  match bk with
  | .Bid => q ≤ p
  | .Ask => p ≤ q

/-- sorted(prices) best-first for book side bk. -/
def sortP (bk : Side) : List Nat → List Nat :=
  sortG (priceLEb bk)

/-- The row [order.time, order.qty, order.tid, order.orderid]. -/
def toEntry (o : ZOrder) : Entry :=
  ⟨o.time, o.qty, o.tid, o.orderid⟩

/-- Orderbook_half.build_lob: regroup the live-order dictionary by price,
sort each price level's rows by arrival time (full Python list key), and
sort the price levels best-first.  The result models self.lob. -/
def build_lob (bk : Side) (orders : List ZOrder) : List (Nat × List Entry) :=
  (sortP bk ((orders.map (fun o => o.price)).dedup)).map
    (fun p => (p, sortE ((orders.filter (fun o => o.price = p)).map toEntry)))

/-- The anonymized book self.lob_anon: price levels best-first with the
aggregate quantity at each price. -/
def lob_anon (bk : Side) (orders : List ZOrder) : List (Nat × Nat) :=
  (sortP bk ((orders.map (fun o => o.price)).dedup)).map
    (fun p => (p, ((orders.filter (fun o => o.price = p)).map (fun o => o.qty)).sum))

/-- Price-comparison function of the half book (bid_equaltoorbetterthan /
ask_equaltoorbetterthan): is price p1 equal to or better than p2 from the
perspective of side bk? -/
def equaltoorbetterthan (bk : Side) (p1 p2 : Nat) : Bool :=
  match bk with
  | .Bid => p2 ≤ p1
  | .Ask => p1 ≤ p2

/-- The depth scan at the top of book_take: walk self.lob_anon best-first,
accumulating quantity while the level price is equal-to-or-better than the
order's price, stopping at the first level that is not. -/
def depthAt (bk : Side) (anon : List (Nat × Nat)) (p : Nat) : Nat :=
  match anon with
  | [] => 0
  | (lp, lq) :: rest =>
      if equaltoorbetterthan bk lp p then lq + depthAt bk rest p else 0

end BSE2

namespace BSE2

/-- Hard failures of the Python source: sys.exit calls, and the
AttributeError raised when code reads a field an object does not have. -/
inductive PyErr where
  | attributeError : PyErr
  | sysExit : PyErr
deriving DecidableEq, Repr

/-- Event kinds of Exch_msg (BSE2_msg_classes.Exch_msg.event). -/
inductive MsgType where
  | ACK : MsgType
  | PART : MsgType
  | FILL : MsgType
  | FAIL : MsgType
  | CAN : MsgType
deriving DecidableEq, Repr

/-- One transaction record {"Price": p, "Qty": q}. -/
structure Transaction where
  price : Nat
  qty : Nat
deriving DecidableEq, Repr

/-- Exch_msg: a message from the exchange back to a trader. -/
structure Msg where
  tid : Nat
  oid : Nat
  event : MsgType
  trns : List Transaction
  revo : Option ZOrder
  fee : Nat
  balance : Nat
deriving DecidableEq, Repr

/-- A tape event: either a Trade (from book_take's add_tapeitem) or a
cancellation (from book_CAN's add_tapeitem). -/
inductive TapeEvent where
  | Trade (poolId time price qty party1 party2 : Nat) : TapeEvent
  | Can (poolId time oid : Nat) (otype : Side) (oQty : Nat) : TapeEvent
deriving DecidableEq, Repr

/-- The price field of a Trade tape event. -/
def TapeEvent.price? : TapeEvent → Option Nat
  | .Trade _ _ p _ _ _ => some p
  | .Can _ _ _ _ _ => none

/-- Is this tape event a Trade? (tr['type'] == 'Trade'). -/
def TapeEvent.isTrade : TapeEvent → Bool
  | .Trade _ _ _ _ _ _ => true
  | .Can _ _ _ _ _ => false

/-- The (party_from, party_to) pair for a trade against resting trader
restTid: a Bid order receives (tid_to = order.tid) from the resting seller,
an Ask order delivers (tid_from = order.tid) to the resting buyer. -/
def tradeParties (o : ZOrder) (restTid : Nat) : Nat × Nat :=
  match o.otype with
  | .Bid => (restTid, o.tid)
  | .Ask => (o.tid, restTid)

/-- The FAIL message add_msg(msg_list, order.tid, order.orderid, "FAIL", ...). -/
def failMsg (o : ZOrder) : Msg :=
  ⟨o.tid, o.orderid, .FAIL, [], none, 0, 0⟩

/-- Mutable state of book_take's while loop: remaining quantity, the live
order dictionary self.orders, the book self.lob, and the accumulating
transaction, message and tape-event lists. -/
structure WalkState where
  qrem : Nat
  orders : List ZOrder
  lob : List (Nat × List Entry)
  trns : List Transaction
  msgs : List Msg
  tape : List TapeEvent
deriving DecidableEq, Repr

/-- Total number of resting-order rows on the book. -/
def countEntries (lob : List (Nat × List Entry)) : Nat :=
  (lob.map (fun lvl => lvl.2.length)).sum

/-- The while loop of Orderbook_half.book_take, consuming the top of the
book.  The Bool argument is good_price as checked by the loop guard: the
source recomputes good_price at the top of the body, so the guard always
tests the value computed one iteration earlier (stale by one consumption).
Each full iteration removes one row from the book, so fuel
countEntries lob + 1 never runs out before the loop's own guard stops it. -/
def walk (bk : Side) (time poolId : Nat) (o : ZOrder) :
    Nat → Bool → WalkState → WalkState
  | 0, _, s => s
  | Nat.succ fuel, gp, s =>
    if gp = true ∧ 0 < s.qrem ∧ s.orders ≠ [] then
      match s.lob with
      | [] => s
      | (p, entries) :: rest =>
        let gp' := equaltoorbetterthan bk p o.price
        if o.ostyle = .IOC ∧ gp' = false then s
        else match entries with
          | [] => s
          | e :: es =>
            if s.qrem ≤ e.qty then
              -- incoming order completely filled by the front resting order
              let qty := s.qrem
              let trns' := s.trns ++ [⟨p, qty⟩]
              let msgs₁ := s.msgs ++ [⟨o.tid, o.orderid, .FILL, trns', none, 0, 0⟩]
              let parties := tradeParties o e.tid
              let tape' := s.tape ++ [.Trade poolId time p qty parties.1 parties.2]
              let newq := e.qty - qty
              if 0 < newq then
                -- front resting order only partially consumed: decrement it
                let orders' := s.orders.map
                  (fun x => if x.orderid = e.oid then {x with qty := newq} else x)
                let revo := orders'.find? (fun x => x.orderid = e.oid)
                let msgs₂ := msgs₁ ++ [⟨e.tid, e.oid, .PART, [⟨p, qty⟩], revo, 0, 0⟩]
                ⟨0, orders', (p, {e with qty := newq} :: es) :: rest, trns', msgs₂, tape'⟩
              else
                -- front resting order fully consumed: delete it
                let orders' := s.orders.filter (fun x => x.orderid ≠ e.oid)
                let msgs₂ := msgs₁ ++ [⟨e.tid, e.oid, .FILL, [⟨p, qty⟩], none, 0, 0⟩]
                let lob' := if es.isEmpty then rest else (p, es) :: rest
                ⟨0, orders', lob', trns', msgs₂, tape'⟩
            else
              -- front resting order fully consumed, incoming continues walking
              let qty := e.qty
              let trns' := s.trns ++ [⟨p, qty⟩]
              let msgs' := s.msgs ++ [⟨e.tid, e.oid, .FILL, [⟨p, qty⟩], none, 0, 0⟩]
              let parties := tradeParties o e.tid
              let tape' := s.tape ++ [.Trade poolId time p qty parties.1 parties.2]
              let orders' := s.orders.filter (fun x => x.orderid ≠ e.oid)
              let lob' := if es.isEmpty then rest else (p, es) :: rest
              walk bk time poolId o fuel gp' ⟨s.qrem - qty, orders', lob', trns', msgs', tape'⟩
    else s

/-- The result of a half-book operation: the trader messages, the tape
events, and the half book's live orders after the operation (the source
rebuilds self.lob from self.orders before returning). -/
structure TakeResult where
  msgs : List Msg
  tape : List TapeEvent
  book : List ZOrder
deriving DecidableEq, Repr

/-- Orderbook_half.book_take: match an incoming liquidity-taking order
(MKT, IOC, FOK, AON, or a crossing LIM re-dispatched as IOC) against this
half of the book.  The FOK/AON insufficient-depth branch of the source
reads order.oid, an attribute the Order class does not define (its field
is orderid), so that branch raises AttributeError. -/
def book_take (bk : Side) (time : Nat) (o : ZOrder) (poolId : Nat)
    (orders : List ZOrder) : Except PyErr TakeResult :=
  match build_lob bk orders with
  | [] => .ok ⟨[failMsg o], [], orders⟩
  | (bp, _) :: _ =>
    let depth := depthAt bk (lob_anon bk orders) o.price
    if (o.ostyle = .FOK ∨ o.ostyle = .AON) ∧ depth < o.qty then
      .error .attributeError
    else if o.ostyle = .IOC ∧ depth < 1 then
      .ok ⟨[failMsg o], [], orders⟩
    else
      let gp0 := if o.ostyle = .MKT then true else equaltoorbetterthan bk bp o.price
      let lob := build_lob bk orders
      let s := walk bk time poolId o (countEntries lob + 1) gp0 ⟨o.qty, orders, lob, [], [], []⟩
      let finalMsgs :=
        if 0 < s.qrem then
          if s.qrem = o.qty then s.msgs ++ [failMsg o]
          else s.msgs ++ [⟨o.tid, o.orderid, .PART, s.trns, some {o with qty := s.qrem}, 0, 0⟩]
        else s.msgs
      .ok ⟨finalMsgs, s.tape, s.orders⟩

/-- Orderbook_half.book_CAN: delete a resting order by order id.  If the
id has no live order, the source prints NOP and calls sys.exit. -/
def book_CAN (bk : Side) (time : Nat) (o : ZOrder) (poolId : Nat)
    (orders : List ZOrder) : Except PyErr TakeResult :=
  match orders.find? (fun x => x.orderid = o.orderid) with
  | some f =>
      .ok ⟨[⟨o.tid, o.orderid, .CAN, [], none, 0, 0⟩],
           [.Can poolId time o.orderid bk f.qty],
           orders.filter (fun x => x.orderid ≠ o.orderid)⟩
  | none => .error .sysExit

end BSE2

namespace BSE2

/-- Dictionary insert into a half book's live-order dict self.orders, keyed
by order id (book_add's self.orders[order.orderid] = order): replace in
place if the key exists, else append. -/
def book_add (orders : List ZOrder) (o : ZOrder) : List ZOrder :=
  if orders.any (fun x => x.orderid = o.orderid) then
    orders.map (fun x => if x.orderid = o.orderid then o else x)
  else orders ++ [o]

/-- One venue's pair of half books (Orderbook.bids / Orderbook.asks),
each represented by its live-order dictionary. -/
structure OBook where
  bids : List ZOrder
  asks : List ZOrder
deriving DecidableEq, Repr

/-- Orderbook.process_order_take: a Bid consumes the top of the ask book,
an Ask consumes the top of the bid book. -/
def process_order_take (time : Nat) (o : ZOrder) (poolId : Nat) (bk : OBook) :
    Except PyErr (TakeResult × OBook) :=
  match o.otype with
  | .Bid => (book_take .Ask time o poolId bk.asks).map (fun r => (r, ⟨bk.bids, r.book⟩))
  | .Ask => (book_take .Bid time o poolId bk.bids).map (fun r => (r, ⟨r.book, bk.asks⟩))

/-- Orderbook.process_order_LIM: if the limit price crosses the opposite
best, restyle the order as IOC and take; otherwise rest it on its own side
(add_lim_order / book_add).  The response is None for a plain add. -/
def process_order_LIM (time : Nat) (o : ZOrder) (poolId : Nat) (bk : OBook) :
    Except PyErr (Option TakeResult × OBook) :=
  match o.otype with
  | .Bid =>
    match build_lob .Ask bk.asks with
    | (bestAskP, _) :: _ =>
        if bestAskP ≤ o.price then
          (book_take .Ask time {o with ostyle := .IOC} poolId bk.asks).map
            (fun r => (some r, ⟨bk.bids, r.book⟩))
        else .ok (none, ⟨book_add bk.bids o, bk.asks⟩)
    | [] => .ok (none, ⟨book_add bk.bids o, bk.asks⟩)
  | .Ask =>
    match build_lob .Bid bk.bids with
    | (bestBidP, _) :: _ =>
        if o.price ≤ bestBidP then
          (book_take .Bid time {o with ostyle := .IOC} poolId bk.bids).map
            (fun r => (some r, ⟨r.book, bk.asks⟩))
        else .ok (none, ⟨bk.bids, book_add bk.asks o⟩)
    | [] => .ok (none, ⟨bk.bids, book_add bk.asks o⟩)

/-- The aggregate trade summary built at the end of Exchange.process_order:
total_cost accumulates event['price'] (not price times quantity) over the
Trade events, total_qty accumulates event['qty'], and the reported price is
total_cost / total_qty (Python 2 integer division); both counterparties are
always reported as None. -/
structure TapeSummary where
  time : Nat
  price : Nat
  party1 : Option Nat
  party2 : Option Nat
  qty : Nat
deriving DecidableEq, Repr

/-- The tape_summary block of Exchange.process_order. -/
def tape_summary (time : Nat) (events : List TapeEvent) : Option TapeSummary :=
  if events.isEmpty then none
  else
    let trades := events.filter (fun e => e.isTrade)
    let totalCost := (trades.map (fun e => (e.price?).getD 0)).sum
    let totalQty := (trades.map (fun e =>
      match e with
      | .Trade _ _ _ q _ _ => q
      | .Can _ _ _ _ _ => 0)).sum
    if 0 < totalQty then
      some ⟨time, totalCost / totalQty, none, none, totalQty⟩
    else none

/-- Orderbook.midprice.  The quantity arguments may be None in Python (then
any numeric comparison with 0 is False); division by 2.0 is exact for the
integer prices in the system range, so the result is modelled in ℚ. -/
def midprice (bidP : Nat) (bidQ : Option Nat) (askP : Nat) (askQ : Option Nat) :
    Option ℚ :=
  if 0 < bidQ.getD 0 ∧ askQ = none then some (bidP : ℚ)
  else if 0 < askQ.getD 0 ∧ bidQ = none then some (askP : ℚ)
  else if 0 < bidQ.getD 0 ∧ 0 < askQ.getD 0 then some (((bidP : ℚ) + (askP : ℚ)) / 2)
  else none

/-- Orderbook.microprice: quantity-weighted price, Python 2 integer
division of integer operands. -/
def microprice (bidP bidQ askP askQ : Nat) : Option Nat :=
  if 0 < bidQ ∧ 0 < askQ then
    some ((bidP * askQ + askP * bidQ) / (bidQ + askQ))
  else none

/-- The fields of the public LOB snapshot that the embedded claims read. -/
structure PubData where
  bestBid : Option Nat
  bestAsk : Option Nat
  mid : Option ℚ
  micro : Option Nat
deriving DecidableEq, Repr

/-- Exchange.publish_lob restricted to the lit book's best prices, midprice
and microprice: best prices come from lob_anon[0][0] of each non-empty
side; midprice and microprice stay None (their initialisation) unless both
sides are non-empty, in which case they are computed from the best levels
of the anonymized books. -/
def publish_lob (bids asks : List ZOrder) : PubData :=
  let bAnon := lob_anon .Bid bids
  let aAnon := lob_anon .Ask asks
  let bestBid := if 0 < bids.length then (bAnon.head?).map (fun l => l.1) else none
  let bestAsk := if 0 < asks.length then (aAnon.head?).map (fun l => l.1) else none
  if 0 < bids.length ∧ 0 < asks.length then
    match bAnon, aAnon with
    | (bp, bq) :: _, (ap, aq) :: _ =>
        ⟨bestBid, bestAsk, midprice bp (some bq) ap (some aq), microprice bp bq ap aq⟩
    | _, _ => ⟨bestBid, bestAsk, none, none⟩
  else ⟨bestBid, bestAsk, none, none⟩

end BSE2

namespace BSE1

/-- An order on the BSE.py exchange (class Order): trader id, side, price,
quantity, timestamp and quote id. -/
structure BOrder where
  tid : Nat
  otype : Side
  price : Nat
  qty : Nat
  time : Nat
  qid : Nat
deriving DecidableEq, Repr

/-- self.orders[order.tid] = order on OrderbookHalf.orders, a dict keyed by
trader id: replace in place if the trader already has an order on this side
(CPython dicts keep the key's position), else append. -/
def dictInsert (orders : List BOrder) (o : BOrder) : List BOrder :=
  if orders.any (fun x => x.tid = o.tid) then
    orders.map (fun x => if x.tid = o.tid then o else x)
  else orders ++ [o]

/-- Return value of OrderbookHalf.book_add. -/
inductive AddResponse where
  | Addition : AddResponse
  | Overwrite : AddResponse
deriving DecidableEq, Repr

/-- OrderbookHalf.book_add: insert the order keyed by trader id, rebuild
the book, and report Addition when the number of live orders grew,
Overwrite when it stayed the same. -/
def book_add (orders : List BOrder) (o : BOrder) : List BOrder × AddResponse :=
  let n := orders.length
  let orders' := dictInsert orders o
  (orders', if orders'.length ≠ n then .Addition else .Overwrite)

/-- OrderbookHalf.book_del: delete the trader's order if it is present. -/
def book_del (orders : List BOrder) (o : BOrder) : List BOrder :=
  if (orders.find? (fun x => x.tid = o.tid)).isSome then
    orders.filter (fun x => x.tid ≠ o.tid)
  else orders

/-- The better of two prices for the given side. -/
def better (side : Side) (p q : Nat) : Nat :=
  match side with
  | .Bid => max p q
  | .Ask => min p q

/-- OrderbookHalf.best_price as maintained by build_lob: the best price on
the side (max over bids, min over asks), None when the side is empty. -/
def bestPrice (side : Side) : List BOrder → Option Nat
  | [] => none
  | o :: rest =>
      some (match bestPrice side rest with
            | none => o.price
            | some b => better side o.price b)

/-- OrderbookHalf.delete_best: look up the first row of the price level at
self.best_price (BSE.py's build_lob appends rows in dict order without
sorting, so the first row is the earliest-inserted order at that price) and
delete that trader's order; the book is then rebuilt from self.orders.
On an empty side (best_price None) the source would fail; the branch is
unreachable from process_order, which only calls delete_best when both
sides are non-empty. -/
def delete_best (side : Side) (orders : List BOrder) : List BOrder :=
  match bestPrice side orders with
  | none => orders
  | some bp =>
    match orders.find? (fun x => x.price = bp) with
    | some f => orders.filter (fun x => x.tid ≠ f.tid)
    | none => orders

/-- The two half books of the BSE.py exchange. -/
structure ExchState where
  bids : List BOrder
  asks : List BOrder
deriving DecidableEq, Repr

/-- Exchange.process_order of BSE.py: add the incoming order to its side
(book_add, possibly overwriting the trader's previous order), then if the
best bid and best ask cross (best_bid >= best_ask, checked only when the
opposite side is non-empty), execute one trade by deleting the best order
of each side.  The time argument only stamps the tape record, which this
model does not track. -/
def process_order (_time : Nat) (o : BOrder) (s : ExchState) : ExchState :=
  match o.otype with
  | .Bid =>
    let bids' := (book_add s.bids o).1
    match bestPrice .Ask s.asks, bestPrice .Bid bids' with
    | some ba, some bb =>
        if ba ≤ bb then ⟨delete_best .Bid bids', delete_best .Ask s.asks⟩
        else ⟨bids', s.asks⟩
    | _, _ => ⟨bids', s.asks⟩
  | .Ask =>
    let asks' := (book_add s.asks o).1
    match bestPrice .Bid s.bids, bestPrice .Ask asks' with
    | some bb, some ba =>
        if ba ≤ bb then ⟨delete_best .Bid s.bids, delete_best .Ask asks'⟩
        else ⟨s.bids, asks'⟩
    | _, _ => ⟨s.bids, asks'⟩

/-- Exchange.del_order of BSE.py restricted to its effect on the books:
book_del on the order's side. -/
def del_order (o : BOrder) (s : ExchState) : ExchState :=
  match o.otype with
  | .Bid => ⟨book_del s.bids o, s.asks⟩
  | .Ask => ⟨s.bids, book_del s.asks o⟩

/-- Exchange states reachable from the empty books through any sequence of
process_order and del_order calls. -/
inductive Reach : ExchState → Prop where
  | init : Reach ⟨[], []⟩
  | step (t : Nat) (o : BOrder) (s : ExchState) : Reach s → Reach (process_order t o s)
  | cancel (o : BOrder) (s : ExchState) : Reach s → Reach (del_order o s)

/-- Every resting bid is strictly below every resting ask. -/
def allBelow (s : ExchState) : Prop :=
  ∀ b ∈ s.bids, ∀ a ∈ s.asks, b.price < a.price

/-- The published no-cross property: best bid at most best ask whenever
both sides are non-empty. -/
def noCross (s : ExchState) : Prop :=
  ∀ bb ba, bestPrice .Bid s.bids = some bb → bestPrice .Ask s.asks = some ba → bb ≤ ba

end BSE1

namespace RawCtor

/-- BSE2_msg_classes.Order as constructed by Order.__init__: every argument
is stored verbatim; side and style tokens are raw values (Nat codes for the
Python strings), price and quantity are raw Python ints (Int here, so that
non-positive quantities are representable).  The source performs no
validation of any field. -/
structure Order2 where
  tid : Nat
  otype : Nat
  ostyle : Nat
  price : Int
  qty : Int
  time : Nat
  endtime : Nat
  orderid : Nat
  myref : Option Nat
  styleparams : Option Nat
deriving DecidableEq, Repr

/-- Order.__init__ of BSE2_msg_classes.py: plain field assignments, myref
and styleparams initialised to None. -/
def Order2.init (trader_id otype ostyle : Nat) (price qty : Int)
    (time endtime orderid : Nat) : Order2 :=
  ⟨trader_id, otype, ostyle, price, qty, time, endtime, orderid, none, none⟩

/-- BSE2_msg_classes.Assignment as constructed by Assignment.__init__:
plain field assignments, no validation. -/
structure Assignment2 where
  custId : Nat
  tradId : Nat
  atype : Nat
  astyle : Nat
  price : Int
  qty : Int
  time : Nat
  endtime : Nat
  assignmentid : Nat
deriving DecidableEq, Repr

/-- Assignment.__init__ of BSE2_msg_classes.py. -/
def Assignment2.init (customer_id trader_id otype ostyle : Nat) (price qty : Int)
    (time endtime assignmentid : Nat) : Assignment2 :=
  ⟨customer_id, trader_id, otype, ostyle, price, qty, time, endtime, assignmentid⟩

/-- BSE.py's class Order as constructed by its __init__: plain field
assignments, no validation. -/
structure Order1 where
  tid : Nat
  otype : Nat
  price : Int
  qty : Int
  time : Nat
  qid : Nat
deriving DecidableEq, Repr

/-- Order.__init__ of BSE.py. -/
def Order1.init (tid otype : Nat) (price qty : Int) (time qid : Nat) : Order1 :=
  ⟨tid, otype, price, qty, time, qid⟩

end RawCtor

namespace BSE2

/-- The best price showing on one half book: the price of the first level
of self.lob (equivalently self.lob_anon[0][0]), None when empty. -/
def bestPriceZ (bk : Side) (orders : List ZOrder) : Option Nat :=
  ((build_lob bk orders).head?).map (fun lvl => lvl.1)

/-- Every resting bid strictly below every resting ask on this venue. -/
def allBelowZ (bk : OBook) : Prop :=
  ∀ b ∈ bk.bids, ∀ a ∈ bk.asks, b.price < a.price

/-- The published no-cross property on a BSE2 venue: best bid at most best
ask whenever both sides are non-empty. -/
def noCrossZ (bk : OBook) : Prop :=
  ∀ bb ba, bestPriceZ .Bid bk.bids = some bb → bestPriceZ .Ask bk.asks = some ba →
    bb ≤ ba

end BSE2

theorem insG_perm {α : Type} (le : α → α → Bool) (e : α) :
    ∀ l : List α, List.Perm (insG le e l) (e :: l)
  | [] => by simp [insG]
  | x :: xs => by
      rw [insG]
      by_cases h : le e x = true
      · rw [if_pos h]
      · rw [if_neg h]
        exact ((insG_perm le e xs).cons x).trans (List.Perm.swap e x xs)

theorem sortG_perm {α : Type} (le : α → α → Bool) :
    ∀ l : List α, List.Perm (sortG le l) l
  | [] => List.Perm.refl _
  | x :: xs => by
      rw [sortG]
      exact (insG_perm le x (sortG le xs)).trans ((sortG_perm le xs).cons x)

theorem mem_sortG {α : Type} {le : α → α → Bool} {x : α} {l : List α} :
    x ∈ sortG le l ↔ x ∈ l :=
  (sortG_perm le l).mem_iff

theorem sortG_eq_nil {α : Type} {le : α → α → Bool} {l : List α} :
    sortG le l = [] ↔ l = [] := by
  constructor
  · intro h
    have := (sortG_perm le l).symm
    rw [h] at this
    exact this.eq_nil
  · intro h
    simp [h, sortG]

theorem pairwise_insG {α : Type} {le : α → α → Bool}
    (htot : ∀ a b, le a b = true ∨ le b a = true)
    (htrans : ∀ a b c, le a b = true → le b c = true → le a c = true)
    (e : α) : ∀ {l : List α}, l.Pairwise (fun a b => le a b = true) →
      (insG le e l).Pairwise (fun a b => le a b = true) := by
  intro l h
  induction l with
  | nil => simp [insG]
  | cons x xs ih =>
    rw [insG]
    rw [List.pairwise_cons] at h
    by_cases hc : le e x = true
    · rw [if_pos hc]
      refine List.Pairwise.cons ?_ (List.Pairwise.cons h.1 h.2)
      intro y hy
      rcases List.mem_cons.mp hy with rfl | hys
      · exact hc
      · exact htrans e x y hc (h.1 y hys)
    · rw [if_neg hc]
      refine List.Pairwise.cons ?_ (ih h.2)
      intro y hy
      rcases List.mem_cons.mp ((insG_perm le e xs).mem_iff.mp hy) with heq | hys
      · rw [heq]
        rcases htot e x with h1 | h1
        · exact absurd h1 hc
        · exact h1
      · exact h.1 y hys

theorem pairwise_sortG {α : Type} {le : α → α → Bool}
    (htot : ∀ a b, le a b = true ∨ le b a = true)
    (htrans : ∀ a b c, le a b = true → le b c = true → le a c = true) :
    ∀ l : List α, (sortG le l).Pairwise (fun a b => le a b = true)
  | [] => by simp [sortG]
  | x :: xs => by
      rw [sortG]
      exact pairwise_insG htot htrans x (pairwise_sortG htot htrans xs)

namespace BSE2

theorem entryLEb_iff (a b : Entry) :
    entryLEb a b = true ↔
      (a.time < b.time ∨ (a.time = b.time ∧ (a.qty < b.qty ∨ (a.qty = b.qty ∧
        (a.tid < b.tid ∨ (a.tid = b.tid ∧ a.oid ≤ b.oid)))))) := by
  unfold entryLEb
  split_ifs <;> simp <;> omega

theorem entryLEb_total (a b : Entry) : entryLEb a b = true ∨ entryLEb b a = true := by
  rw [entryLEb_iff, entryLEb_iff]
  omega

theorem entryLEb_trans (a b c : Entry)
    (h1 : entryLEb a b = true) (h2 : entryLEb b c = true) : entryLEb a c = true := by
  rw [entryLEb_iff] at h1 h2 ⊢
  omega

theorem entryLEb_time_le {a b : Entry} (h : entryLEb a b = true) : a.time ≤ b.time := by
  rw [entryLEb_iff] at h
  omega

theorem priceLEb_total (bk : Side) (p q : Nat) :
    priceLEb bk p q = true ∨ priceLEb bk q p = true := by
  cases bk <;> simp [priceLEb] <;> omega

theorem priceLEb_trans (bk : Side) (p q r : Nat)
    (h1 : priceLEb bk p q = true) (h2 : priceLEb bk q r = true) :
    priceLEb bk p r = true := by
  cases bk <;> simp [priceLEb] at h1 h2 ⊢ <;> omega

theorem priceLEb_refl (bk : Side) (p : Nat) : priceLEb bk p p = true := by
  cases bk <;> simp [priceLEb]

theorem sortE_time_sorted (l : List Entry) :
    (sortE l).Pairwise (fun a b => a.time ≤ b.time) :=
  (pairwise_sortG entryLEb_total entryLEb_trans l).imp entryLEb_time_le

end BSE2

namespace BSE2

theorem build_lob_level_time_sorted {bk : Side} {orders : List ZOrder}
    {p : Nat} {es : List Entry} (h : (p, es) ∈ build_lob bk orders) :
    es.Pairwise (fun a b => a.time ≤ b.time) := by
  rcases List.mem_map.mp h with ⟨q, _, heq⟩
  have : es = sortE ((orders.filter (fun o => o.price = q)).map toEntry) :=
    (congrArg Prod.snd heq).symm
  rw [this]
  exact sortE_time_sorted _

theorem build_lob_price_mem {bk : Side} {orders : List ZOrder}
    {p : Nat} {es : List Entry} (h : (p, es) ∈ build_lob bk orders) :
    ∃ o ∈ orders, o.price = p := by
  rcases List.mem_map.mp h with ⟨q, hq, heq⟩
  have hqp : q = p := congrArg Prod.fst heq
  subst hqp
  have hq' : q ∈ (orders.map (fun o => o.price)).dedup := mem_sortG.mp hq
  rcases List.mem_map.mp (List.mem_dedup.mp hq') with ⟨o, ho, hop⟩
  exact ⟨o, ho, hop⟩

theorem build_lob_eq_nil {bk : Side} {orders : List ZOrder} :
    build_lob bk orders = [] ↔ orders = [] := by
  unfold build_lob sortP
  rw [List.map_eq_nil_iff, sortG_eq_nil, List.dedup_eq_nil, List.map_eq_nil_iff]

theorem build_lob_level_ne_nil {bk : Side} {orders : List ZOrder}
    {p : Nat} {es : List Entry} (h : (p, es) ∈ build_lob bk orders) :
    es ≠ [] := by
  rcases List.mem_map.mp h with ⟨q, hq, heq⟩
  have hqp : q = p := congrArg Prod.fst heq
  subst hqp
  have hes : es = sortE ((orders.filter (fun o => o.price = q)).map toEntry) :=
    (congrArg Prod.snd heq).symm
  have hq' : q ∈ (orders.map (fun o => o.price)).dedup := mem_sortG.mp hq
  rcases List.mem_map.mp (List.mem_dedup.mp hq') with ⟨o, ho, hop⟩
  have : toEntry o ∈ (orders.filter (fun o => o.price = q)).map toEntry :=
    List.mem_map_of_mem toEntry (List.mem_filter.mpr ⟨ho, by simpa using hop⟩)
  rw [hes]
  intro hnil
  rw [show sortE = sortG entryLEb from rfl, sortG_eq_nil] at hnil
  rw [hnil] at this
  exact List.not_mem_nil _ this

theorem build_lob_head_best {bk : Side} {orders : List ZOrder}
    {p : Nat} {es : List Entry} {rest : List (Nat × List Entry)}
    (h : build_lob bk orders = (p, es) :: rest) :
    ∀ o ∈ orders, priceLEb bk p o.price = true := by
  intro o ho
  unfold build_lob at h
  rcases hs : sortP bk ((orders.map (fun o => o.price)).dedup) with _ | ⟨p0, t⟩
  · rw [hs] at h
    simp at h
  · rw [hs] at h
    simp only [List.map_cons] at h
    have hp0 : p0 = p := congrArg Prod.fst (List.head_eq_of_cons_eq h)
    subst hp0
    have hsorted : (sortP bk ((orders.map (fun o => o.price)).dedup)).Pairwise
        (fun a b => priceLEb bk a b = true) :=
      pairwise_sortG (priceLEb_total bk) (priceLEb_trans bk) _
    rw [hs, List.pairwise_cons] at hsorted
    have hmem : o.price ∈ sortP bk ((orders.map (fun o => o.price)).dedup) := by
      rw [show sortP bk = sortG (priceLEb bk) from rfl, mem_sortG]
      exact List.mem_dedup.mpr (List.mem_map_of_mem _ ho)
    rw [hs] at hmem
    rcases List.mem_cons.mp hmem with heq | hmem'
    · rw [heq]
      exact priceLEb_refl bk _
    · exact hsorted.1 _ hmem'

end BSE2

namespace BSE2

theorem walk_tape_prefix (bk : Side) (t pid : Nat) (o : ZOrder) :
    ∀ (fuel : Nat) (gp : Bool) (s : WalkState),
      ∃ d, (walk bk t pid o fuel gp s).tape = s.tape ++ d
  | 0, gp, s => ⟨[], by simp [walk]⟩
  | Nat.succ fuel, gp, s => by
      rw [walk]
      by_cases hc : (gp = true ∧ 0 < s.qrem ∧ s.orders ≠ [])
      · rw [if_pos hc]
        rcases hlob : s.lob with _ | ⟨⟨p, entries⟩, rest⟩
        · exact ⟨[], by simp⟩
        · dsimp only
          by_cases hioc : (o.ostyle = OStyle.IOC ∧ equaltoorbetterthan bk p o.price = false)
          · rw [if_pos hioc]
            exact ⟨[], by simp⟩
          · rw [if_neg hioc]
            rcases entries with _ | ⟨e, es⟩
            · exact ⟨[], by simp⟩
            · dsimp only
              by_cases hq : s.qrem ≤ e.qty
              · rw [if_pos hq]
                by_cases hnq : 0 < e.qty - s.qrem
                · rw [if_pos hnq]
                  exact ⟨_, rfl⟩
                · rw [if_neg hnq]
                  exact ⟨_, rfl⟩
              · rw [if_neg hq]
                rcases walk_tape_prefix bk t pid o fuel
                    (equaltoorbetterthan bk p o.price)
                    ⟨s.qrem - e.qty,
                     s.orders.filter (fun x => x.orderid ≠ e.oid),
                     if es.isEmpty then rest else (p, es) :: rest,
                     s.trns ++ [⟨p, e.qty⟩],
                     s.msgs ++ [⟨e.tid, e.oid, .FILL, [⟨p, e.qty⟩], none, 0, 0⟩],
                     s.tape ++ [.Trade pid t p e.qty (tradeParties o e.tid).1 (tradeParties o e.tid).2]⟩
                  with ⟨d, hd⟩
                exact ⟨.Trade pid t p e.qty (tradeParties o e.tid).1 (tradeParties o e.tid).2 :: d,
                       by rw [hd]; simp⟩
      · rw [if_neg hc]
        exact ⟨[], by simp⟩

end BSE2

namespace BSE2

theorem walk_tape_prices (bk : Side) (t pid : Nat) (o : ZOrder) (S : List Nat) :
    ∀ (fuel : Nat) (gp : Bool) (s : WalkState),
      (∀ ev ∈ s.tape, ∀ pr, ev.price? = some pr → pr ∈ S) →
      (∀ pe ∈ s.lob, pe.1 ∈ S) →
      ∀ ev ∈ (walk bk t pid o fuel gp s).tape, ∀ pr, ev.price? = some pr → pr ∈ S
  | 0, gp, s => fun h1 _ => by simpa [walk] using h1
  | Nat.succ fuel, gp, s => fun h1 h2 => by
      rw [walk]
      by_cases hc : (gp = true ∧ 0 < s.qrem ∧ s.orders ≠ [])
      · rw [if_pos hc]
        rcases hlob : s.lob with _ | ⟨⟨p, entries⟩, rest⟩
        · exact h1
        · have hpS : p ∈ S := h2 (p, entries) (by rw [hlob]; exact List.mem_cons_self _ _)
          have hrestS : ∀ pe ∈ rest, pe.1 ∈ S := by
            intro pe hpe
            exact h2 pe (by rw [hlob]; exact List.mem_cons_of_mem _ hpe)
          dsimp only
          by_cases hioc : (o.ostyle = OStyle.IOC ∧ equaltoorbetterthan bk p o.price = false)
          · rw [if_pos hioc]
            exact h1
          · rw [if_neg hioc]
            rcases entries with _ | ⟨e, es⟩
            · exact h1
            · dsimp only
              have htape1 : ∀ ev ∈ s.tape ++
                  [TapeEvent.Trade pid t p s.qrem (tradeParties o e.tid).1 (tradeParties o e.tid).2],
                  ∀ pr, ev.price? = some pr → pr ∈ S := by
                intro ev hev pr hpr
                rcases List.mem_append.mp hev with hev1 | hev2
                · exact h1 ev hev1 pr hpr
                · rcases List.mem_singleton.mp hev2 with rfl
                  rw [TapeEvent.price?] at hpr
                  rw [(Option.some_inj).mp hpr] at hpS
                  exact hpS
              have htape2 : ∀ ev ∈ s.tape ++
                  [TapeEvent.Trade pid t p e.qty (tradeParties o e.tid).1 (tradeParties o e.tid).2],
                  ∀ pr, ev.price? = some pr → pr ∈ S := by
                intro ev hev pr hpr
                rcases List.mem_append.mp hev with hev1 | hev2
                · exact h1 ev hev1 pr hpr
                · rcases List.mem_singleton.mp hev2 with rfl
                  rw [TapeEvent.price?] at hpr
                  rw [(Option.some_inj).mp hpr] at hpS
                  exact hpS
              by_cases hq : s.qrem ≤ e.qty
              · rw [if_pos hq]
                by_cases hnq : 0 < e.qty - s.qrem
                · rw [if_pos hnq]
                  exact htape1
                · rw [if_neg hnq]
                  exact htape1
              · rw [if_neg hq]
                refine walk_tape_prices bk t pid o S fuel
                    (equaltoorbetterthan bk p o.price) _ htape2 ?_
                intro pe hpe
                dsimp only at hpe
                by_cases hes : es.isEmpty
                · rw [if_pos hes] at hpe
                  exact hrestS pe hpe
                · rw [if_neg hes] at hpe
                  rcases List.mem_cons.mp hpe with heq | hpe'
                  · rw [heq]
                    exact hpS
                  · exact hrestS pe hpe'
      · rw [if_neg hc]
        exact h1

end BSE2

namespace BSE2

theorem walk_orders_price (bk : Side) (t pid : Nat) (o : ZOrder) :
    ∀ (fuel : Nat) (gp : Bool) (s : WalkState),
      ∀ x ∈ (walk bk t pid o fuel gp s).orders, ∃ y ∈ s.orders, x.price = y.price
  | 0, gp, s => fun x hx => ⟨x, by simpa [walk] using hx, rfl⟩
  | Nat.succ fuel, gp, s => by
      rw [walk]
      by_cases hc : (gp = true ∧ 0 < s.qrem ∧ s.orders ≠ [])
      · rw [if_pos hc]
        rcases hlob : s.lob with _ | ⟨⟨p, entries⟩, rest⟩
        · exact fun x hx => ⟨x, hx, rfl⟩
        · dsimp only
          by_cases hioc : (o.ostyle = OStyle.IOC ∧ equaltoorbetterthan bk p o.price = false)
          · rw [if_pos hioc]
            exact fun x hx => ⟨x, hx, rfl⟩
          · rw [if_neg hioc]
            rcases entries with _ | ⟨e, es⟩
            · exact fun x hx => ⟨x, hx, rfl⟩
            · dsimp only
              by_cases hq : s.qrem ≤ e.qty
              · rw [if_pos hq]
                by_cases hnq : 0 < e.qty - s.qrem
                · rw [if_pos hnq]
                  intro x hx
                  dsimp only at hx
                  rcases List.mem_map.mp hx with ⟨y, hy, hxy⟩
                  by_cases hid : y.orderid = e.oid
                  · rw [if_pos hid] at hxy
                    exact ⟨y, hy, by rw [hxy.symm]⟩
                  · rw [if_neg hid] at hxy
                    exact ⟨y, hy, by rw [hxy.symm]⟩
                · rw [if_neg hnq]
                  intro x hx
                  dsimp only at hx
                  exact ⟨x, List.mem_of_mem_filter hx, rfl⟩
              · rw [if_neg hq]
                intro x hx
                rcases walk_orders_price bk t pid o fuel
                    (equaltoorbetterthan bk p o.price)
                    ⟨s.qrem - e.qty,
                     s.orders.filter (fun z => z.orderid ≠ e.oid),
                     if es.isEmpty then rest else (p, es) :: rest,
                     s.trns ++ [⟨p, e.qty⟩],
                     s.msgs ++ [⟨e.tid, e.oid, .FILL, [⟨p, e.qty⟩], none, 0, 0⟩],
                     s.tape ++ [.Trade pid t p e.qty (tradeParties o e.tid).1 (tradeParties o e.tid).2]⟩
                    x hx with ⟨y, hy, hxy⟩
                exact ⟨y, List.mem_of_mem_filter hy, hxy⟩
      · rw [if_neg hc]
        exact fun x hx => ⟨x, hx, rfl⟩

theorem walk_tape_head (bk : Side) (t pid : Nat) (o : ZOrder)
    (fuel : Nat) (gp : Bool) (s : WalkState) (p : Nat) (e : Entry) (es : List Entry)
    (rest : List (Nat × List Entry))
    (htape : s.tape = []) (hlob : s.lob = (p, e :: es) :: rest) :
    (walk bk t pid o fuel gp s).tape = [] ∨
      ∃ q, (walk bk t pid o fuel gp s).tape.head? =
        some (.Trade pid t p q (tradeParties o e.tid).1 (tradeParties o e.tid).2) := by
  rcases fuel with _ | fuel
  · left
    simpa [walk] using htape
  · rw [walk]
    by_cases hc : (gp = true ∧ 0 < s.qrem ∧ s.orders ≠ [])
    · rw [if_pos hc]
      rcases hlob' : s.lob with _ | ⟨⟨p', entries'⟩, rest'⟩
      · left
        exact htape
      · have hpp : p' = p ∧ entries' = e :: es ∧ rest' = rest := by
          rw [hlob'] at hlob
          have h1 := List.head_eq_of_cons_eq hlob
          have h2 := List.tail_eq_of_cons_eq hlob
          exact ⟨congrArg Prod.fst h1, congrArg Prod.snd h1, h2⟩
        rcases hpp with ⟨rfl, rfl, rfl⟩
        dsimp only
        by_cases hioc : (o.ostyle = OStyle.IOC ∧ equaltoorbetterthan bk p' o.price = false)
        · rw [if_pos hioc]
          left
          exact htape
        · rw [if_neg hioc]
          by_cases hq : s.qrem ≤ e.qty
          · rw [if_pos hq]
            by_cases hnq : 0 < e.qty - s.qrem
            · rw [if_pos hnq]
              right
              exact ⟨s.qrem, by rw [htape]; simp⟩
            · rw [if_neg hnq]
              right
              exact ⟨s.qrem, by rw [htape]; simp⟩
          · rw [if_neg hq]
            right
            rcases walk_tape_prefix bk t pid o fuel
                (equaltoorbetterthan bk p' o.price)
                ⟨s.qrem - e.qty,
                 s.orders.filter (fun z => z.orderid ≠ e.oid),
                 if es.isEmpty then rest' else (p', es) :: rest',
                 s.trns ++ [⟨p', e.qty⟩],
                 s.msgs ++ [⟨e.tid, e.oid, .FILL, [⟨p', e.qty⟩], none, 0, 0⟩],
                 s.tape ++ [.Trade pid t p' e.qty (tradeParties o e.tid).1 (tradeParties o e.tid).2]⟩
              with ⟨d, hd⟩
            refine ⟨e.qty, ?_⟩
            rw [hd]
            dsimp only
            rw [htape]
            simp
    · rw [if_neg hc]
      left
      exact htape

end BSE2


namespace BSE2

theorem book_take_tape_price {bk : Side} {t : Nat} {o : ZOrder} {pid : Nat}
    {orders : List ZOrder} {r : TakeResult}
    (h : book_take bk t o pid orders = .ok r) :
    ∀ ev ∈ r.tape, ∀ pr, ev.price? = some pr → ∃ y ∈ orders, y.price = pr := by
  unfold book_take at h
  rcases hbl : build_lob bk orders with _ | ⟨⟨bp, es0⟩, rest0⟩
  · rw [hbl] at h
    dsimp only at h
    rcases (Except.ok.injEq _ _).mp h with rfl
    intro ev hev
    exact absurd hev (List.not_mem_nil ev)
  · rw [hbl] at h
    dsimp only at h
    by_cases h1 : ((o.ostyle = OStyle.FOK ∨ o.ostyle = OStyle.AON) ∧
        depthAt bk (lob_anon bk orders) o.price < o.qty)
    · rw [if_pos h1] at h
      simp at h
    · rw [if_neg h1] at h
      by_cases h2 : (o.ostyle = OStyle.IOC ∧ depthAt bk (lob_anon bk orders) o.price < 1)
      · rw [if_pos h2] at h
        rcases (Except.ok.injEq _ _).mp h with rfl
        intro ev hev
        exact absurd hev (List.not_mem_nil ev)
      · rw [if_neg h2] at h
        rcases (Except.ok.injEq _ _).mp h with rfl
        intro ev hev pr hpr
        dsimp only at hev
        have hmem : pr ∈ orders.map (fun y => y.price) := by
          refine walk_tape_prices bk t pid o (orders.map (fun y => y.price)) _ _ _
            ?_ ?_ ev hev pr hpr
          · intro ev' hev'
            exact absurd hev' (List.not_mem_nil ev')
          · intro pe hpe
            have hpe' : pe ∈ build_lob bk orders := by
              rw [hbl]
              exact hpe
            rcases build_lob_price_mem hpe' with ⟨y, hy, hyp⟩
            rw [hyp.symm]
            exact List.mem_map_of_mem _ hy
        rcases List.mem_map.mp hmem with ⟨y, hy, hyp⟩
        exact ⟨y, hy, hyp⟩

theorem book_take_book_price {bk : Side} {t : Nat} {o : ZOrder} {pid : Nat}
    {orders : List ZOrder} {r : TakeResult}
    (h : book_take bk t o pid orders = .ok r) :
    ∀ x ∈ r.book, ∃ y ∈ orders, x.price = y.price := by
  unfold book_take at h
  rcases hbl : build_lob bk orders with _ | ⟨⟨bp, es0⟩, rest0⟩
  · rw [hbl] at h
    dsimp only at h
    rcases (Except.ok.injEq _ _).mp h with rfl
    exact fun x hx => ⟨x, hx, rfl⟩
  · rw [hbl] at h
    dsimp only at h
    by_cases h1 : ((o.ostyle = OStyle.FOK ∨ o.ostyle = OStyle.AON) ∧
        depthAt bk (lob_anon bk orders) o.price < o.qty)
    · rw [if_pos h1] at h
      simp at h
    · rw [if_neg h1] at h
      by_cases h2 : (o.ostyle = OStyle.IOC ∧ depthAt bk (lob_anon bk orders) o.price < 1)
      · rw [if_pos h2] at h
        rcases (Except.ok.injEq _ _).mp h with rfl
        exact fun x hx => ⟨x, hx, rfl⟩
      · rw [if_neg h2] at h
        rcases (Except.ok.injEq _ _).mp h with rfl
        intro x hx
        dsimp only at hx
        exact walk_orders_price bk t pid o _ _ _ x hx

theorem book_take_first_trade {bk : Side} {t : Nat} {o : ZOrder} {pid : Nat}
    {orders : List ZOrder} {r : TakeResult}
    (h : book_take bk t o pid orders = .ok r) (hne : r.tape ≠ []) :
    ∃ p e es rest q, build_lob bk orders = (p, e :: es) :: rest ∧
      r.tape.head? =
        some (.Trade pid t p q (tradeParties o e.tid).1 (tradeParties o e.tid).2) := by
  unfold book_take at h
  rcases hbl : build_lob bk orders with _ | ⟨⟨bp, es0⟩, rest0⟩
  · rw [hbl] at h
    dsimp only at h
    rcases (Except.ok.injEq _ _).mp h with rfl
    exact absurd rfl hne
  · rw [hbl] at h
    dsimp only at h
    by_cases h1 : ((o.ostyle = OStyle.FOK ∨ o.ostyle = OStyle.AON) ∧
        depthAt bk (lob_anon bk orders) o.price < o.qty)
    · rw [if_pos h1] at h
      simp at h
    · rw [if_neg h1] at h
      by_cases h2 : (o.ostyle = OStyle.IOC ∧ depthAt bk (lob_anon bk orders) o.price < 1)
      · rw [if_pos h2] at h
        rcases (Except.ok.injEq _ _).mp h with rfl
        exact absurd rfl hne
      · rw [if_neg h2] at h
        rcases (Except.ok.injEq _ _).mp h with rfl
        have hes0 : es0 ≠ [] :=
          build_lob_level_ne_nil (p := bp) (by rw [hbl]; exact List.mem_cons_self _ _)
        rcases hes : es0 with _ | ⟨e, es⟩
        · exact absurd hes hes0
        · subst hes
          have hne' : (walk bk t pid o (countEntries ((bp, e :: es) :: rest0) + 1)
              (if o.ostyle = OStyle.MKT then true else equaltoorbetterthan bk bp o.price)
              ⟨o.qty, orders, (bp, e :: es) :: rest0, [], [], []⟩).tape ≠ [] := by
            intro hz
            apply hne
            dsimp only
            exact hz
          rcases walk_tape_head bk t pid o (countEntries ((bp, e :: es) :: rest0) + 1)
              (if o.ostyle = OStyle.MKT then true else equaltoorbetterthan bk bp o.price)
              ⟨o.qty, orders, (bp, e :: es) :: rest0, [], [], []⟩ bp e es rest0 rfl rfl
            with hnil | ⟨q, hq⟩
          · exact absurd hnil hne'
          · exact ⟨bp, e, es, rest0, q, rfl, hq⟩

end BSE2

namespace BSE1

theorem mem_dictInsert {orders : List BOrder} {o y : BOrder}
    (hy : y ∈ dictInsert orders o) : y = o ∨ (y ∈ orders ∧ y.tid ≠ o.tid) := by
  unfold dictInsert at hy
  by_cases hc : orders.any (fun x => x.tid = o.tid)
  · rw [if_pos hc] at hy
    rcases List.mem_map.mp hy with ⟨x, hx, hxy⟩
    by_cases hid : x.tid = o.tid
    · rw [if_pos hid] at hxy
      left
      exact hxy.symm
    · rw [if_neg hid] at hxy
      right
      rw [hxy.symm]
      exact ⟨hx, hid⟩
  · rw [if_neg hc] at hy
    rcases List.mem_append.mp hy with h1 | h2
    · right
      refine ⟨h1, fun heq => ?_⟩
      exact hc (List.any_eq_true.mpr ⟨y, h1, by simp [heq]⟩)
    · left
      exact List.mem_singleton.mp h2

theorem self_mem_dictInsert (orders : List BOrder) (o : BOrder) :
    o ∈ dictInsert orders o := by
  unfold dictInsert
  by_cases hc : orders.any (fun x => x.tid = o.tid)
  · rw [if_pos hc]
    rcases List.any_eq_true.mp hc with ⟨x, hx, hxt⟩
    refine List.mem_map.mpr ⟨x, hx, ?_⟩
    rw [if_pos (by simpa using hxt)]
  · rw [if_neg hc]
    exact List.mem_append.mpr (Or.inr (List.mem_singleton.mpr rfl))

theorem bestPrice_eq_none {side : Side} {orders : List BOrder} :
    bestPrice side orders = none ↔ orders = [] := by
  cases orders <;> simp [bestPrice]

theorem bestPrice_best {side : Side} {orders : List BOrder} {b : Nat}
    (h : bestPrice side orders = some b) :
    ∀ x ∈ orders, BSE2.priceLEb side b x.price = true := by
  induction orders generalizing b with
  | nil => simp [bestPrice] at h
  | cons o rest ih =>
    rw [bestPrice] at h
    rcases hrest : bestPrice side rest with _ | c
    · have hre : rest = [] := bestPrice_eq_none.mp hrest
      rw [hrest] at h
      have hb : b = o.price := (Option.some_inj.mp h).symm
      intro x hx
      rcases List.mem_cons.mp hx with rfl | hx'
      · rw [hb]
        exact BSE2.priceLEb_refl side _
      · rw [hre] at hx'
        exact absurd hx' (List.not_mem_nil x)
    · rw [hrest] at h
      have hb : b = better side o.price c := (Option.some_inj.mp h).symm
      intro x hx
      rcases List.mem_cons.mp hx with rfl | hx'
      · rw [hb]
        cases side <;> simp [better, BSE2.priceLEb]
      · have := ih hrest x hx'
        rw [hb]
        cases side <;> simp [better, BSE2.priceLEb] at this ⊢ <;> omega

theorem bestPrice_mem {side : Side} {orders : List BOrder} {b : Nat}
    (h : bestPrice side orders = some b) : ∃ x ∈ orders, x.price = b := by
  induction orders generalizing b with
  | nil => simp [bestPrice] at h
  | cons o rest ih =>
    rw [bestPrice] at h
    rcases hrest : bestPrice side rest with _ | c
    · rw [hrest] at h
      exact ⟨o, List.mem_cons_self _ _, Option.some_inj.mp h⟩
    · rw [hrest] at h
      have hb : b = better side o.price c := (Option.some_inj.mp h).symm
      rcases ih hrest with ⟨x, hx, hxc⟩
      by_cases hside : better side o.price c = o.price
      · exact ⟨o, List.mem_cons_self _ _, by rw [hb, hside]⟩
      · refine ⟨x, List.mem_cons_of_mem _ hx, ?_⟩
        rw [hb, hxc]
        cases side <;> simp [better] at hside ⊢ <;> omega

theorem delete_best_subset {side : Side} {orders : List BOrder} :
    ∀ x ∈ delete_best side orders, x ∈ orders := by
  intro x hx
  unfold delete_best at hx
  split at hx
  · exact hx
  · split at hx
    · exact List.mem_of_mem_filter hx
    · exact hx

theorem delete_best_of_unique {orders : List BOrder} {o : BOrder} {bp : Nat}
    (hbp : bestPrice .Bid orders = some bp)
    (ho : o ∈ orders) (hop : o.price = bp)
    (huniq : ∀ y ∈ orders, y.price = bp → y = o) :
    ∀ x ∈ delete_best .Bid orders, x ∈ orders ∧ x.tid ≠ o.tid := by
  intro x hx
  unfold delete_best at hx
  rw [hbp] at hx
  dsimp only at hx
  split at hx
  next f heq =>
    have hfo : f = o := by
      refine huniq f (List.mem_of_find?_eq_some heq) ?_
      have := List.find?_some heq
      simpa using this
    rcases List.mem_filter.mp hx with ⟨hx1, hx2⟩
    refine ⟨hx1, ?_⟩
    rw [hfo] at hx2
    simpa using hx2
  next heq =>
    have := List.find?_eq_none.mp heq o ho
    simp [hop] at this

theorem delete_best_of_unique_ask {orders : List BOrder} {o : BOrder} {bp : Nat}
    (hbp : bestPrice .Ask orders = some bp)
    (ho : o ∈ orders) (hop : o.price = bp)
    (huniq : ∀ y ∈ orders, y.price = bp → y = o) :
    ∀ x ∈ delete_best .Ask orders, x ∈ orders ∧ x.tid ≠ o.tid := by
  intro x hx
  unfold delete_best at hx
  rw [hbp] at hx
  dsimp only at hx
  split at hx
  next f heq =>
    have hfo : f = o := by
      refine huniq f (List.mem_of_find?_eq_some heq) ?_
      have := List.find?_some heq
      simpa using this
    rcases List.mem_filter.mp hx with ⟨hx1, hx2⟩
    refine ⟨hx1, ?_⟩
    rw [hfo] at hx2
    simpa using hx2
  next heq =>
    have := List.find?_eq_none.mp heq o ho
    simp [hop] at this

end BSE1

namespace BSE1

theorem book_del_subset {orders : List BOrder} {o : BOrder} :
    ∀ x ∈ book_del orders o, x ∈ orders := by
  intro x hx
  unfold book_del at hx
  split at hx
  · exact List.mem_of_mem_filter hx
  · exact hx

theorem allBelow_process_order {s : ExchState} (h : allBelow s) (t : Nat) (o : BOrder) :
    allBelow (process_order t o s) := by
  rcases s with ⟨bids, asks⟩
  unfold process_order
  cases hot : o.otype
  case Bid =>
    dsimp only [book_add]
    rcases hba : bestPrice .Ask asks with _ | ba
    · dsimp only
      intro b hb a ha
      rw [bestPrice_eq_none.mp hba] at ha
      exact absurd ha (List.not_mem_nil a)
    · rcases hbb : bestPrice .Bid (dictInsert bids o) with _ | bb
      · dsimp only
        intro b hb a ha
        rw [bestPrice_eq_none.mp hbb] at hb
        exact absurd hb (List.not_mem_nil b)
      · dsimp only
        by_cases hcross : ba ≤ bb
        · rw [if_pos hcross]
          have homem : o ∈ dictInsert bids o := self_mem_dictInsert bids o
          rcases bestPrice_mem hba with ⟨a0, ha0, ha0p⟩
          have huniq : ∀ y ∈ dictInsert bids o, y.price = bb → y = o := by
            intro y hy hyp
            rcases mem_dictInsert hy with heq | ⟨hy', _⟩
            · exact heq
            · have h1 : y.price < a0.price := h y hy' a0 ha0
              rw [ha0p] at h1
              omega
          rcases bestPrice_mem hbb with ⟨x0, hx0, hx0p⟩
          have hop : o.price = bb := by
            have hxo := huniq x0 hx0 hx0p
            rw [hxo] at hx0p
            exact hx0p
          intro b hb a ha
          have hbmem := delete_best_of_unique hbb homem hop huniq b hb
          have hamem := delete_best_subset a ha
          rcases mem_dictInsert hbmem.1 with heq | ⟨hb', _⟩
          · rw [heq] at hbmem
            exact absurd rfl hbmem.2
          · exact h b hb' a hamem
        · rw [if_neg hcross]
          intro b hb a ha
          rcases mem_dictInsert hb with heq | ⟨hb', _⟩
          · have h1 := bestPrice_best hbb o (self_mem_dictInsert bids o)
            have h2 := bestPrice_best hba a ha
            simp [BSE2.priceLEb] at h1 h2
            rw [heq]
            omega
          · exact h b hb' a ha
  case Ask =>
    dsimp only [book_add]
    rcases hbb : bestPrice .Bid bids with _ | bb
    · dsimp only
      intro b hb a ha
      rw [bestPrice_eq_none.mp hbb] at hb
      exact absurd hb (List.not_mem_nil b)
    · rcases hba : bestPrice .Ask (dictInsert asks o) with _ | ba
      · dsimp only
        intro b hb a ha
        rw [bestPrice_eq_none.mp hba] at ha
        exact absurd ha (List.not_mem_nil a)
      · dsimp only
        by_cases hcross : ba ≤ bb
        · rw [if_pos hcross]
          have homem : o ∈ dictInsert asks o := self_mem_dictInsert asks o
          rcases bestPrice_mem hbb with ⟨b0, hb0, hb0p⟩
          have huniq : ∀ y ∈ dictInsert asks o, y.price = ba → y = o := by
            intro y hy hyp
            rcases mem_dictInsert hy with heq | ⟨hy', _⟩
            · exact heq
            · have h1 : b0.price < y.price := h b0 hb0 y hy'
              rw [hb0p] at h1
              omega
          rcases bestPrice_mem hba with ⟨x0, hx0, hx0p⟩
          have hop : o.price = ba := by
            have hxo := huniq x0 hx0 hx0p
            rw [hxo] at hx0p
            exact hx0p
          intro b hb a ha
          have hamem := delete_best_of_unique_ask hba homem hop huniq a ha
          have hbmem := delete_best_subset b hb
          rcases mem_dictInsert hamem.1 with heq | ⟨ha', _⟩
          · rw [heq] at hamem
            exact absurd rfl hamem.2
          · exact h b hbmem a ha'
        · rw [if_neg hcross]
          intro b hb a ha
          rcases mem_dictInsert ha with heq | ⟨ha', _⟩
          · have h1 := bestPrice_best hba o (self_mem_dictInsert asks o)
            have h2 := bestPrice_best hbb b hb
            simp [BSE2.priceLEb] at h1 h2
            rw [heq]
            omega
          · exact h b hb a ha'

theorem allBelow_del_order {s : ExchState} (h : allBelow s) (o : BOrder) :
    allBelow (del_order o s) := by
  rcases s with ⟨bids, asks⟩
  unfold del_order
  cases o.otype
  case Bid =>
    intro b hb a ha
    exact h b (book_del_subset b hb) a ha
  case Ask =>
    intro b hb a ha
    exact h b hb a (book_del_subset a ha)

theorem reach_allBelow {s : ExchState} (h : Reach s) : allBelow s := by
  induction h with
  | init => exact fun b hb => absurd hb (List.not_mem_nil b)
  | step t o s hs ih => exact allBelow_process_order ih t o
  | cancel o s hs ih => exact allBelow_del_order ih o

theorem allBelow_noCross {s : ExchState} (h : allBelow s) : noCross s := by
  intro bb ba hbb hba
  rcases bestPrice_mem hbb with ⟨x, hx, hxp⟩
  rcases bestPrice_mem hba with ⟨a, ha, hap⟩
  have := h x hx a ha
  omega

end BSE1

namespace BSE2

theorem mem_book_add {orders : List ZOrder} {o y : ZOrder}
    (hy : y ∈ book_add orders o) : y = o ∨ y ∈ orders := by
  unfold book_add at hy
  by_cases hc : orders.any (fun x => x.orderid = o.orderid)
  · rw [if_pos hc] at hy
    rcases List.mem_map.mp hy with ⟨x, hx, hxy⟩
    by_cases hid : x.orderid = o.orderid
    · rw [if_pos hid] at hxy
      left
      exact hxy.symm
    · rw [if_neg hid] at hxy
      right
      rw [hxy.symm]
      exact hx
  · rw [if_neg hc] at hy
    rcases List.mem_append.mp hy with h1 | h2
    · right
      exact h1
    · left
      exact List.mem_singleton.mp h2

theorem bestPriceZ_mem {bk : Side} {orders : List ZOrder} {b : Nat}
    (h : bestPriceZ bk orders = some b) : ∃ o ∈ orders, o.price = b := by
  unfold bestPriceZ at h
  rcases hbl : build_lob bk orders with _ | ⟨lvl, rest⟩
  · rw [hbl] at h
    simp at h
  · rw [hbl] at h
    simp only [List.head?] at h
    have hlb : lvl.1 = b := by simpa using h
    have : (lvl.1, lvl.2) ∈ build_lob bk orders := by
      rw [hbl]
      exact List.mem_cons_self _ _
    rcases build_lob_price_mem this with ⟨y, hy, hyp⟩
    exact ⟨y, hy, by rw [hyp, hlb]⟩

theorem allBelowZ_noCrossZ {bk : OBook} (h : allBelowZ bk) : noCrossZ bk := by
  intro bb ba hbb hba
  rcases bestPriceZ_mem hbb with ⟨x, hx, hxp⟩
  rcases bestPriceZ_mem hba with ⟨a, ha, hap⟩
  have := h x hx a ha
  omega

theorem allBelowZ_take {t : Nat} {o : ZOrder} {pid : Nat} {bk : OBook}
    {r : TakeResult} {bk' : OBook} (h : allBelowZ bk)
    (hres : process_order_take t o pid bk = .ok (r, bk')) : allBelowZ bk' := by
  unfold process_order_take at hres
  cases hot : o.otype
  case Bid =>
    rw [hot] at hres
    dsimp only at hres
    rcases hbt : book_take .Ask t o pid bk.asks with e | r0
    · rw [hbt] at hres
      simp [Except.map] at hres
    · rw [hbt] at hres
      simp only [Except.map, Except.ok.injEq, Prod.mk.injEq] at hres
      rcases hres with ⟨rfl, rfl⟩
      intro b hb a ha
      rcases book_take_book_price hbt a ha with ⟨y, hy, hyp⟩
      rw [hyp]
      exact h b hb y hy
  case Ask =>
    rw [hot] at hres
    dsimp only at hres
    rcases hbt : book_take .Bid t o pid bk.bids with e | r0
    · rw [hbt] at hres
      simp [Except.map] at hres
    · rw [hbt] at hres
      simp only [Except.map, Except.ok.injEq, Prod.mk.injEq] at hres
      rcases hres with ⟨rfl, rfl⟩
      intro b hb a ha
      rcases book_take_book_price hbt b hb with ⟨y, hy, hyp⟩
      rw [hyp]
      exact h y hy a ha

theorem allBelowZ_LIM {t : Nat} {o : ZOrder} {pid : Nat} {bk : OBook}
    {resp : Option TakeResult} {bk' : OBook} (h : allBelowZ bk)
    (hres : process_order_LIM t o pid bk = .ok (resp, bk')) : allBelowZ bk' := by
  unfold process_order_LIM at hres
  cases hot : o.otype
  case Bid =>
    rw [hot] at hres
    dsimp only at hres
    rcases hbl : build_lob .Ask bk.asks with _ | ⟨⟨bestAskP, l0⟩, rest0⟩
    · rw [hbl] at hres
      dsimp only at hres
      simp only [Except.ok.injEq, Prod.mk.injEq] at hres
      rcases hres with ⟨rfl, rfl⟩
      intro b hb a ha
      have : bk.asks = [] := build_lob_eq_nil.mp hbl
      rw [this] at ha
      exact absurd ha (List.not_mem_nil a)
    · rw [hbl] at hres
      dsimp only at hres
      by_cases hcross : bestAskP ≤ o.price
      · rw [if_pos hcross] at hres
        rcases hbt : book_take Side.Ask t
            { tid := o.tid, otype := Side.Bid, ostyle := OStyle.IOC, price := o.price,
              qty := o.qty, time := o.time, orderid := o.orderid } pid bk.asks with e | r0
        · rw [hbt] at hres
          simp [Except.map] at hres
        · rw [hbt] at hres
          simp only [Except.map, Except.ok.injEq, Prod.mk.injEq] at hres
          rcases hres with ⟨rfl, rfl⟩
          intro b hb a ha
          rcases book_take_book_price hbt a ha with ⟨y, hy, hyp⟩
          rw [hyp]
          exact h b hb y hy
      · rw [if_neg hcross] at hres
        simp only [Except.ok.injEq, Prod.mk.injEq] at hres
        rcases hres with ⟨rfl, rfl⟩
        intro b hb a ha
        rcases mem_book_add hb with heq | hb'
        · have hbest := build_lob_head_best hbl a ha
          simp [priceLEb] at hbest
          rw [heq]
          omega
        · exact h b hb' a ha
  case Ask =>
    rw [hot] at hres
    dsimp only at hres
    rcases hbl : build_lob .Bid bk.bids with _ | ⟨⟨bestBidP, l0⟩, rest0⟩
    · rw [hbl] at hres
      dsimp only at hres
      simp only [Except.ok.injEq, Prod.mk.injEq] at hres
      rcases hres with ⟨rfl, rfl⟩
      intro b hb a ha
      have : bk.bids = [] := build_lob_eq_nil.mp hbl
      rw [this] at hb
      exact absurd hb (List.not_mem_nil b)
    · rw [hbl] at hres
      dsimp only at hres
      by_cases hcross : o.price ≤ bestBidP
      · rw [if_pos hcross] at hres
        rcases hbt : book_take Side.Bid t
            { tid := o.tid, otype := Side.Ask, ostyle := OStyle.IOC, price := o.price,
              qty := o.qty, time := o.time, orderid := o.orderid } pid bk.bids with e | r0
        · rw [hbt] at hres
          simp [Except.map] at hres
        · rw [hbt] at hres
          simp only [Except.map, Except.ok.injEq, Prod.mk.injEq] at hres
          rcases hres with ⟨rfl, rfl⟩
          intro b hb a ha
          rcases book_take_book_price hbt b hb with ⟨y, hy, hyp⟩
          rw [hyp]
          exact h y hy a ha
      · rw [if_neg hcross] at hres
        simp only [Except.ok.injEq, Prod.mk.injEq] at hres
        rcases hres with ⟨rfl, rfl⟩
        intro b hb a ha
        rcases mem_book_add ha with heq | ha'
        · have hbest := build_lob_head_best hbl b hb
          simp [priceLEb] at hbest
          rw [heq]
          omega
        · exact h b hb a ha'

end BSE2

/-- C1: for every reachable exchange state and every submitted order, when a
call to process_order returns, if both the bid side and the ask side of the
venue's book are non-empty then the best bid price is at most the best ask
price: any transient cross created by the incoming order is fully resolved
before the call returns.  Proved (i) for BSE.py's Exchange.process_order over
all states reachable from the empty books through process_order and del_order
calls, and (ii, iii) for BSE2.py's Orderbook.process_order_LIM and
Orderbook.process_order_take as preservation of the engine's book invariant
(every resting bid strictly below every resting ask). -/
theorem C1_no_cross_after_process_order :
    (∀ (s : BSE1.ExchState), BSE1.Reach s → ∀ (t : Nat) (o : BSE1.BOrder),
        BSE1.noCross (BSE1.process_order t o s)) ∧
    (∀ (t : Nat) (o : BSE2.ZOrder) (pid : Nat) (bk : BSE2.OBook)
        (resp : Option BSE2.TakeResult) (bk' : BSE2.OBook),
        BSE2.allBelowZ bk → BSE2.process_order_LIM t o pid bk = .ok (resp, bk') →
        BSE2.noCrossZ bk') ∧
    (∀ (t : Nat) (o : BSE2.ZOrder) (pid : Nat) (bk : BSE2.OBook)
        (r : BSE2.TakeResult) (bk' : BSE2.OBook),
        BSE2.allBelowZ bk → BSE2.process_order_take t o pid bk = .ok (r, bk') →
        BSE2.noCrossZ bk') := by
  refine ⟨?_, ?_, ?_⟩
  · intro s hs t o
    exact BSE1.allBelow_noCross (BSE1.allBelow_process_order (BSE1.reach_allBelow hs) t o)
  · intro t o pid bk resp bk' h hres
    exact BSE2.allBelowZ_noCrossZ (BSE2.allBelowZ_LIM h hres)
  · intro t o pid bk r bk' h hres
    exact BSE2.allBelowZ_noCrossZ (BSE2.allBelowZ_take h hres)

/-- Witness for C1 at concrete inputs: a bid at 90 and an ask at 100 rest,
then a bid at 95 arrives (BSE.py); a BSE2 venue in the same state receives a
LIM bid at 95, and another one a MKT bid. -/
theorem C1_no_cross_after_process_order_witness :
    BSE1.noCross (BSE1.process_order 3 ⟨3, .Bid, 95, 1, 3, 2⟩
      (BSE1.process_order 2 ⟨2, .Ask, 100, 1, 2, 1⟩
        (BSE1.process_order 1 ⟨1, .Bid, 90, 1, 1, 0⟩ ⟨[], []⟩))) ∧
    BSE2.noCrossZ ⟨[⟨1, .Bid, .LIM, 90, 1, 1, 0⟩, ⟨3, .Bid, .LIM, 95, 1, 3, 2⟩],
                   [⟨2, .Ask, .LIM, 100, 1, 2, 1⟩]⟩ ∧
    BSE2.noCrossZ ⟨[], []⟩ := by
  refine ⟨?_, ?_, ?_⟩
  · exact C1_no_cross_after_process_order.1 _
      (BSE1.Reach.step 2 _ _ (BSE1.Reach.step 1 _ _ BSE1.Reach.init)) 3 _
  · exact C1_no_cross_after_process_order.2.1 3 ⟨3, .Bid, .LIM, 95, 1, 3, 2⟩ 0
      ⟨[⟨1, .Bid, .LIM, 90, 1, 1, 0⟩], [⟨2, .Ask, .LIM, 100, 1, 2, 1⟩]⟩
      none _ (by unfold BSE2.allBelowZ; decide) (by rfl)
  · exact C1_no_cross_after_process_order.2.2 4 ⟨4, .Bid, .MKT, 1, 1, 4, 3⟩ 0
      ⟨[], [⟨2, .Ask, .LIM, 100, 1, 2, 1⟩]⟩
      ⟨[⟨4, 3, .FILL, [⟨100, 1⟩], none, 0, 0⟩, ⟨2, 1, .FILL, [⟨100, 1⟩], none, 0, 0⟩],
        [.Trade 0 4 100 1 2 4], []⟩ _ (by unfold BSE2.allBelowZ; decide) (by rfl)

/-- C2 (evaluation at the failing input): with a resting Ask LIM price=100
qty=2 and an incoming Bid FOK price=100 qty=5, the price-qualified depth (2,
second conjunct) is below the requested quantity (5), and book_take raises
AttributeError -- the source's FOK/AON FAIL branch reads order.oid, an
attribute the Order class does not define (its field is orderid) -- instead
of returning the FAIL message described by the spec. -/
theorem C2_fok_insufficient_depth_crashes :
    BSE2.book_take .Ask 3 ⟨20, .Bid, .FOK, 100, 5, 3, 9⟩ 0
      [⟨10, .Ask, .LIM, 100, 2, 1, 1⟩] = .error .attributeError ∧
    BSE2.depthAt .Ask (BSE2.lob_anon .Ask [⟨10, .Ask, .LIM, 100, 2, 1, 1⟩]) 100 = 2 :=
  ⟨rfl, rfl⟩

/-- C5 (evaluation at the failing input): an incoming Bid MKT qty=2 price=1
against two resting asks of qty 1 at price 100.  The spec says a MKT order
walks on regardless of its own price field until its quantity is filled or
the book is exhausted, but the loop recomputes good_price for MKT orders
too, so the walk stops after consuming only the first resting ask: one Trade
is taped, the trader gets a PART with remaining qty 1, and the second ask is
still on the book. -/
theorem C5_mkt_walk_stops_at_price_limit :
    BSE2.book_take .Ask 3 ⟨20, .Bid, .MKT, 1, 2, 3, 5⟩ 0
      [⟨10, .Ask, .LIM, 100, 1, 1, 1⟩, ⟨11, .Ask, .LIM, 100, 1, 2, 2⟩] =
    .ok ⟨[⟨10, 1, .FILL, [⟨100, 1⟩], none, 0, 0⟩,
          ⟨20, 5, .PART, [⟨100, 1⟩], some ⟨20, .Bid, .MKT, 1, 1, 3, 5⟩, 0, 0⟩],
         [.Trade 0 3 100 1 10 20],
         [⟨11, .Ask, .LIM, 100, 1, 2, 2⟩]⟩ :=
  rfl

/-- C6 (evaluation at the failing input): one Bid IOC price=100 qty=3 fills
against asks at 90 (qty 1) and 100 (qty 2), producing two Trade events.  The
tape summary built at the end of Exchange.process_order reports total qty 3
but price (90 + 100) / 3 = 63 -- the source sums event prices without
multiplying by quantity -- instead of the volume-weighted average price
(90*1 + 100*2)/3 that the spec (and the code's own comment about "total cost
C of execution") describes. -/
theorem C6_tape_summary_price_not_vwap :
    (BSE2.book_take .Ask 5 ⟨20, .Bid, .IOC, 100, 3, 5, 7⟩ 0
        [⟨11, .Ask, .LIM, 90, 1, 1, 1⟩, ⟨12, .Ask, .LIM, 100, 2, 2, 2⟩]).map
      (fun r => BSE2.tape_summary 5 r.tape) =
      .ok (some ⟨5, 63, none, none, 3⟩) ∧
    (63 : ℚ) ≠ (90 * 1 + 100 * 2 : ℚ) / 3 := by
  exact ⟨rfl, by norm_num⟩

namespace BSE2

theorem lob_anon_eq_nil {bk : Side} {orders : List ZOrder} :
    lob_anon bk orders = [] ↔ orders = [] := by
  unfold lob_anon sortP
  rw [List.map_eq_nil_iff, sortG_eq_nil, List.dedup_eq_nil, List.map_eq_nil_iff]

end BSE2

/-- C7 (counterexample): with a single resting bid at 100 and no asks,
publish_lob reports midprice None, not the bid price 100 as the claim's
one-sided rule requires; and with best bid (100, qty 1) against best ask
(91, qty 1) -- a book state used here only to exercise the arithmetic --
the reported microprice is the integer 95, not the exact quotient
(100*1 + 91*1)/(1+1) = 95.5 stated by the claim. -/
theorem C7_publish_lob_counterexample :
    (BSE2.publish_lob [⟨1, .Bid, .LIM, 100, 1, 1, 0⟩] []).mid = none ∧
    (BSE2.publish_lob [⟨1, .Bid, .LIM, 100, 1, 1, 0⟩]
        [⟨2, .Ask, .LIM, 91, 1, 2, 1⟩]).micro = some 95 ∧
    (95 : ℚ) ≠ (100 * 1 + 91 * 1 : ℚ) / (1 + 1) := by
  exact ⟨rfl, rfl, by norm_num⟩

/-- C7 amended: publish_lob reports the midprice as the arithmetic mean of
the best bid and best ask prices when both sides of the lit book are
non-empty, and as None when either side is empty (Orderbook.midprice's
single-side fallback is unreachable from publish_lob, which only invokes it
when both sides are non-empty); the microprice equals the integer floor of
(bid_price*ask_qty + ask_price*bid_qty)/(bid_qty+ask_qty) (Python 2 integer
division) when both sides are non-empty, and is None otherwise. -/
theorem C7_publish_lob_mid_micro (bids asks : List BSE2.ZOrder)
    (bp bq ap aq : Nat) (bs as' : List (Nat × Nat))
    (hb : BSE2.lob_anon .Bid bids = (bp, bq) :: bs)
    (ha : BSE2.lob_anon .Ask asks = (ap, aq) :: as')
    (hbq : 0 < bq) (haq : 0 < aq) :
    ((BSE2.publish_lob bids asks).mid = some (((bp : ℚ) + (ap : ℚ)) / 2) ∧
     (BSE2.publish_lob bids asks).micro = some ((bp * aq + ap * bq) / (bq + aq))) ∧
    (∀ bids2 : List BSE2.ZOrder,
      (BSE2.publish_lob bids2 []).mid = none ∧
      (BSE2.publish_lob bids2 []).micro = none) ∧
    (∀ asks2 : List BSE2.ZOrder,
      (BSE2.publish_lob [] asks2).mid = none ∧
      (BSE2.publish_lob [] asks2).micro = none) := by
  refine ⟨?_, ?_, ?_⟩
  · have hbne : bids ≠ [] := by
      intro h0
      rw [h0] at hb
      rw [BSE2.lob_anon_eq_nil.mpr rfl] at hb
      exact List.noConfusion hb
    have hane : asks ≠ [] := by
      intro h0
      rw [h0] at ha
      rw [BSE2.lob_anon_eq_nil.mpr rfl] at ha
      exact List.noConfusion ha
    unfold BSE2.publish_lob
    rw [hb, ha]
    dsimp only
    rw [if_pos ⟨List.length_pos.mpr hbne, List.length_pos.mpr hane⟩]
    constructor
    · show BSE2.midprice bp (some bq) ap (some aq) = _
      unfold BSE2.midprice
      rw [if_neg (by simp), if_neg (by simp), if_pos (by simpa using ⟨hbq, haq⟩)]
    · show BSE2.microprice bp bq ap aq = _
      unfold BSE2.microprice
      rw [if_pos ⟨hbq, haq⟩]
  · intro bids2
    unfold BSE2.publish_lob
    simp
  · intro asks2
    unfold BSE2.publish_lob
    simp

/-- Witness for C7 amended at a concrete two-sided book. -/
theorem C7_publish_lob_mid_micro_witness :
    ((BSE2.publish_lob [⟨1, .Bid, .LIM, 100, 1, 1, 0⟩]
        [⟨2, .Ask, .LIM, 91, 1, 2, 1⟩]).mid = some (((100 : ℚ) + (91 : ℚ)) / 2) ∧
     (BSE2.publish_lob [⟨1, .Bid, .LIM, 100, 1, 1, 0⟩]
        [⟨2, .Ask, .LIM, 91, 1, 2, 1⟩]).micro = some ((100 * 1 + 91 * 1) / (1 + 1))) ∧
    (∀ bids2 : List BSE2.ZOrder,
      (BSE2.publish_lob bids2 []).mid = none ∧
      (BSE2.publish_lob bids2 []).micro = none) ∧
    (∀ asks2 : List BSE2.ZOrder,
      (BSE2.publish_lob [] asks2).mid = none ∧
      (BSE2.publish_lob [] asks2).micro = none) :=
  C7_publish_lob_mid_micro
    [⟨1, .Bid, .LIM, 100, 1, 1, 0⟩] [⟨2, .Ask, .LIM, 91, 1, 2, 1⟩]
    100 1 91 1 [] [] rfl rfl (by decide) (by decide)

/-- C3: strict FIFO per price level.  (i) Every price level built by
build_lob lists its resting orders in non-decreasing arrival time; (ii) any
Trade emitted first by book_take consumes the front row of the best price
level; and (iii) for any two resting same-price orders with arrival times
t1 < t2, an incoming opposite-side order's first trade names the
earlier-arrived order's trader as the resting counterparty. -/
theorem C3_price_time_priority :
    (∀ (bk : Side) (orders : List BSE2.ZOrder) (p : Nat) (es : List BSE2.Entry),
        (p, es) ∈ BSE2.build_lob bk orders →
        es.Pairwise (fun a b => a.time ≤ b.time)) ∧
    (∀ (bk : Side) (t : Nat) (o : BSE2.ZOrder) (pid : Nat)
        (orders : List BSE2.ZOrder) (r : BSE2.TakeResult),
        BSE2.book_take bk t o pid orders = .ok r → r.tape ≠ [] →
        ∃ p e es rest q, BSE2.build_lob bk orders = (p, e :: es) :: rest ∧
          r.tape.head? = some (.Trade pid t p q (BSE2.tradeParties o e.tid).1
            (BSE2.tradeParties o e.tid).2)) ∧
    (∀ (pr t1 t2 q1 q2 tid1 tid2 oid1 oid2 t pid : Nat) (o : BSE2.ZOrder)
        (r : BSE2.TakeResult), t1 < t2 → o.otype = .Bid →
        BSE2.book_take .Ask t o pid
          [⟨tid1, .Ask, .LIM, pr, q1, t1, oid1⟩, ⟨tid2, .Ask, .LIM, pr, q2, t2, oid2⟩]
          = .ok r → r.tape ≠ [] →
        ∃ q, r.tape.head? = some (.Trade pid t pr q tid1 o.tid)) := by
  refine ⟨?_, ?_, ?_⟩
  · intro bk orders p es h
    exact BSE2.build_lob_level_time_sorted h
  · intro bk t o pid orders r h hne
    exact BSE2.book_take_first_trade h hne
  · intro pr t1 t2 q1 q2 tid1 tid2 oid1 oid2 t pid o r ht hot h hne
    have hb : BSE2.build_lob .Ask
        [⟨tid1, .Ask, .LIM, pr, q1, t1, oid1⟩, ⟨tid2, .Ask, .LIM, pr, q2, t2, oid2⟩] =
        [(pr, [⟨t1, q1, tid1, oid1⟩, ⟨t2, q2, tid2, oid2⟩])] := by
      have hd : (([pr, pr] : List Nat)).dedup = [pr] := by
        rw [List.dedup_cons_of_mem (by simp), List.dedup_cons_of_not_mem (by simp),
          List.dedup_nil]
      have hle : BSE2.entryLEb ⟨t1, q1, tid1, oid1⟩ ⟨t2, q2, tid2, oid2⟩ = true := by
        unfold BSE2.entryLEb
        rw [if_pos ht]
      have hfil : ([⟨tid1, .Ask, .LIM, pr, q1, t1, oid1⟩,
          ⟨tid2, .Ask, .LIM, pr, q2, t2, oid2⟩] : List BSE2.ZOrder).filter
            (fun o => o.price = pr) =
          [⟨tid1, .Ask, .LIM, pr, q1, t1, oid1⟩, ⟨tid2, .Ask, .LIM, pr, q2, t2, oid2⟩] := by
        refine List.filter_eq_self.mpr ?_
        intro a ha
        rcases List.mem_cons.mp ha with rfl | ha'
        · simp
        · rcases List.mem_singleton.mp ha' with rfl
          simp
      have hse : BSE2.sortE [⟨t1, q1, tid1, oid1⟩, ⟨t2, q2, tid2, oid2⟩] =
          [⟨t1, q1, tid1, oid1⟩, ⟨t2, q2, tid2, oid2⟩] := by
        show (if BSE2.entryLEb ⟨t1, q1, tid1, oid1⟩ ⟨t2, q2, tid2, oid2⟩ = true
          then [(⟨t1, q1, tid1, oid1⟩ : BSE2.Entry), ⟨t2, q2, tid2, oid2⟩]
          else [⟨t2, q2, tid2, oid2⟩, ⟨t1, q1, tid1, oid1⟩]) = _
        rw [if_pos hle]
      unfold BSE2.build_lob
      rw [show ([⟨tid1, .Ask, .LIM, pr, q1, t1, oid1⟩,
          ⟨tid2, .Ask, .LIM, pr, q2, t2, oid2⟩] : List BSE2.ZOrder).map
            (fun o => o.price) = [pr, pr] from rfl]
      rw [hd]
      rw [show BSE2.sortP .Ask [pr] = [pr] from rfl]
      dsimp only [List.map]
      rw [hfil]
      dsimp only [List.map, BSE2.toEntry]
      rw [hse]
    rcases BSE2.book_take_first_trade h hne with ⟨p', e', es', rest', q', hbl, hhd⟩
    rw [hb] at hbl
    have hp : p' = pr := (congrArg Prod.fst (List.head_eq_of_cons_eq hbl)).symm
    have he : e' = ⟨t1, q1, tid1, oid1⟩ := by
      have := congrArg Prod.snd (List.head_eq_of_cons_eq hbl)
      exact (List.head_eq_of_cons_eq this.symm)
    have hparties : BSE2.tradeParties o tid1 = (tid1, o.tid) := by
      unfold BSE2.tradeParties
      rw [hot]
    refine ⟨q', ?_⟩
    rw [hhd, hp, he]
    dsimp only
    rw [hparties]

/-- Witness for C3 at concrete inputs: a level with rows at times 4 and 9,
and a book of two same-price asks hit by a market bid. -/
theorem C3_price_time_priority_witness :
    ([⟨4, 2, 7, 11⟩, ⟨9, 3, 8, 12⟩] : List BSE2.Entry).Pairwise
        (fun a b => a.time ≤ b.time) ∧
    (∃ q, ([BSE2.TapeEvent.Trade 0 10 50 1 7 20] : List BSE2.TapeEvent).head? =
        some (.Trade 0 10 50 q 7 20)) := by
  constructor
  · have h := C3_price_time_priority.1 .Ask
      [⟨7, .Ask, .LIM, 50, 2, 4, 11⟩, ⟨8, .Ask, .LIM, 50, 3, 9, 12⟩] 50
      [⟨4, 2, 7, 11⟩, ⟨9, 3, 8, 12⟩] (by rw [show BSE2.build_lob .Ask
        [⟨7, .Ask, .LIM, 50, 2, 4, 11⟩, ⟨8, .Ask, .LIM, 50, 3, 9, 12⟩] =
        [(50, [⟨4, 2, 7, 11⟩, ⟨9, 3, 8, 12⟩])] from rfl]; exact List.mem_singleton.mpr rfl)
    exact h
  · exact C3_price_time_priority.2.2 50 4 9 2 3 7 8 11 12 10 0
      ⟨20, .Bid, .MKT, 200, 1, 10, 30⟩
      ⟨[⟨20, 30, .FILL, [⟨50, 1⟩], none, 0, 0⟩,
        ⟨7, 11, .PART, [⟨50, 1⟩], some ⟨7, .Ask, .LIM, 50, 1, 4, 11⟩, 0, 0⟩],
       [.Trade 0 10 50 1 7 20],
       [⟨7, .Ask, .LIM, 50, 1, 4, 11⟩, ⟨8, .Ask, .LIM, 50, 3, 9, 12⟩]⟩
      (by decide) rfl rfl (by decide)

/-- C4: every Trade tape event emitted by book_take carries the price of
some order resting on the walked side of the book before the call; in
particular, when no resting order sits at the incoming order's limit price,
no Trade is taped at the incoming order's limit price. -/
theorem C4_trades_at_resting_price :
    (∀ (bk : Side) (t : Nat) (o : BSE2.ZOrder) (pid : Nat)
        (orders : List BSE2.ZOrder) (r : BSE2.TakeResult),
        BSE2.book_take bk t o pid orders = .ok r →
        ∀ ev ∈ r.tape, ∀ pr, ev.price? = some pr → ∃ y ∈ orders, y.price = pr) ∧
    (∀ (bk : Side) (t : Nat) (o : BSE2.ZOrder) (pid : Nat)
        (orders : List BSE2.ZOrder) (r : BSE2.TakeResult),
        BSE2.book_take bk t o pid orders = .ok r →
        (∀ y ∈ orders, y.price ≠ o.price) →
        ∀ ev ∈ r.tape, ev.price? ≠ some o.price) := by
  constructor
  · intro bk t o pid orders r h
    exact BSE2.book_take_tape_price h
  · intro bk t o pid orders r h hno ev hev hevp
    rcases BSE2.book_take_tape_price h ev hev o.price hevp with ⟨y, hy, hyp⟩
    exact hno y hy hyp

/-- Witness for C4: an Ask IOC at 95 hits a resting bid at 100; the one
taped Trade is at the resting order's price 100, and no Trade is taped at
the incoming order's limit price 95. -/
theorem C4_trades_at_resting_price_witness :
    (∀ ev ∈ [BSE2.TapeEvent.Trade 0 2 100 1 2 1], ∀ pr,
        ev.price? = some pr →
        ∃ y ∈ [(⟨1, .Bid, .LIM, 100, 1, 1, 0⟩ : BSE2.ZOrder)], y.price = pr) ∧
    (∀ ev ∈ [BSE2.TapeEvent.Trade 0 2 100 1 2 1],
        ev.price? ≠ some (95 : Nat)) := by
  constructor
  · intro ev hev pr hpr
    exact C4_trades_at_resting_price.1 .Bid 2 ⟨2, .Ask, .IOC, 95, 1, 2, 1⟩ 0
      [⟨1, .Bid, .LIM, 100, 1, 1, 0⟩]
      ⟨[⟨2, 1, .FILL, [⟨100, 1⟩], none, 0, 0⟩, ⟨1, 0, .FILL, [⟨100, 1⟩], none, 0, 0⟩],
       [.Trade 0 2 100 1 2 1], []⟩ rfl ev hev pr hpr
  · intro ev hev
    exact C4_trades_at_resting_price.2 .Bid 2 ⟨2, .Ask, .IOC, 95, 1, 2, 1⟩ 0
      [⟨1, .Bid, .LIM, 100, 1, 1, 0⟩]
      ⟨[⟨2, 1, .FILL, [⟨100, 1⟩], none, 0, 0⟩, ⟨1, 0, .FILL, [⟨100, 1⟩], none, 0, 0⟩],
       [.Trade 0 2 100 1 2 1], []⟩ rfl (by decide) ev hev

/-- C8 (counterexample): the constructors perform no validation.  An Order
with quantity -5 (non-positive) and side/style tokens 999/888 (matching no
recognized token) is constructed normally, storing the fields verbatim;
likewise an Assignment with quantity 0 and BSE.py's Order with quantity -1. -/
theorem C8_constructors_accept_invalid_counterexample :
    (RawCtor.Order2.init 1 999 888 50 (-5) 0 0 7).qty = -5 ∧
    (RawCtor.Order2.init 1 999 888 50 (-5) 0 0 7).otype = 999 ∧
    (RawCtor.Assignment2.init 1 2 999 888 50 0 0 0 3).qty = 0 ∧
    (RawCtor.Order1.init 1 999 50 (-1) 0 4).qty = -1 ∧
    ¬ (0 : Int) < -5 :=
  ⟨rfl, rfl, rfl, rfl, by norm_num⟩

/-- C8 amended: the Order and Assignment constructors (BSE2_msg_classes.py)
and BSE.py's Order constructor perform no validation at all: every argument
combination -- including non-positive quantities and unrecognized side or
style tokens -- constructs successfully, with every field stored verbatim. -/
theorem C8_constructors_store_fields_verbatim (trader_id otype ostyle : Nat)
    (price qty : Int) (time endtime orderid cid aid qid : Nat) :
    RawCtor.Order2.init trader_id otype ostyle price qty time endtime orderid =
      ⟨trader_id, otype, ostyle, price, qty, time, endtime, orderid, none, none⟩ ∧
    RawCtor.Assignment2.init cid trader_id otype ostyle price qty time endtime aid =
      ⟨cid, trader_id, otype, ostyle, price, qty, time, endtime, aid⟩ ∧
    RawCtor.Order1.init trader_id otype price qty time qid =
      ⟨trader_id, otype, price, qty, time, qid⟩ :=
  ⟨rfl, rfl, rfl⟩

/-- C9: cancelling an order id with no matching live order on the addressed
side book exits fatally (sys.exit, modelled as Except.error), rather than
returning a result; when the id is present, the order is removed from the
live-order set and exactly one CAN trader message and one cancellation tape
event are produced. -/
theorem C9_book_CAN_semantics (bk : Side) (t : Nat) (o : BSE2.ZOrder) (pid : Nat)
    (orders : List BSE2.ZOrder) :
    (orders.find? (fun x => x.orderid = o.orderid) = none →
      BSE2.book_CAN bk t o pid orders = .error .sysExit) ∧
    (∀ f, orders.find? (fun x => x.orderid = o.orderid) = some f →
      BSE2.book_CAN bk t o pid orders =
        .ok ⟨[⟨o.tid, o.orderid, .CAN, [], none, 0, 0⟩],
             [.Can pid t o.orderid bk f.qty],
             orders.filter (fun x => x.orderid ≠ o.orderid)⟩ ∧
      (∀ x ∈ orders.filter (fun x => x.orderid ≠ o.orderid), x.orderid ≠ o.orderid) ∧
      (∀ x ∈ orders, x.orderid ≠ o.orderid →
          x ∈ orders.filter (fun x => x.orderid ≠ o.orderid))) := by
  constructor
  · intro hnone
    unfold BSE2.book_CAN
    rw [hnone]
  · intro f hf
    refine ⟨?_, ?_, ?_⟩
    · unfold BSE2.book_CAN
      rw [hf]
    · intro x hx
      have := (List.mem_filter.mp hx).2
      simpa using this
    · intro x hx hxne
      exact List.mem_filter.mpr ⟨hx, by simpa using hxne⟩

/-- Witness for C9: cancelling order id 9 on a book holding only order id 1
exits fatally; cancelling order id 1 removes it and produces one CAN message
and one CAN tape event. -/
theorem C9_book_CAN_semantics_witness :
    BSE2.book_CAN .Bid 4 ⟨10, .Bid, .CAN, 0, 1, 4, 9⟩ 0
      [⟨10, .Bid, .LIM, 100, 1, 1, 1⟩] = .error .sysExit ∧
    BSE2.book_CAN .Bid 4 ⟨10, .Bid, .CAN, 0, 1, 4, 1⟩ 0
      [⟨10, .Bid, .LIM, 100, 1, 1, 1⟩] =
      .ok ⟨[⟨10, 1, .CAN, [], none, 0, 0⟩], [.Can 0 4 1 .Bid 1], []⟩ := by
  constructor
  · exact (C9_book_CAN_semantics .Bid 4 ⟨10, .Bid, .CAN, 0, 1, 4, 9⟩ 0
      [⟨10, .Bid, .LIM, 100, 1, 1, 1⟩]).1 rfl
  · exact ((C9_book_CAN_semantics .Bid 4 ⟨10, .Bid, .CAN, 0, 1, 4, 1⟩ 0
      [⟨10, .Bid, .LIM, 100, 1, 1, 1⟩]).2 ⟨10, .Bid, .LIM, 100, 1, 1, 1⟩ rfl).1

namespace BSE1

theorem dictInsert_tid_map {orders : List BOrder} {o : BOrder}
    (hc : orders.any (fun x => x.tid = o.tid) = true) :
    (dictInsert orders o).map (fun x => x.tid) = orders.map (fun x => x.tid) := by
  unfold dictInsert
  rw [if_pos hc, List.map_map]
  refine List.map_congr_left ?_
  intro x _
  by_cases hid : x.tid = o.tid
  · simp only [Function.comp]
    rw [if_pos hid, hid]
  · simp only [Function.comp]
    rw [if_neg hid]

end BSE1

/-- C10: in BSE.py one side of the book holds at most one live order per
trader.  book_add returns Addition exactly when the trader had no resting
order on that side and Overwrite exactly when it had one (which the new
order replaces); and the per-trader-unique-key invariant (no duplicate
trader ids on a side) is preserved by book_add, book_del and delete_best. -/
theorem C10_one_order_per_trader :
    (∀ (orders : List BSE1.BOrder) (o : BSE1.BOrder),
       ((BSE1.book_add orders o).2 = .Addition ↔ ¬ ∃ x ∈ orders, x.tid = o.tid) ∧
       ((BSE1.book_add orders o).2 = .Overwrite ↔ ∃ x ∈ orders, x.tid = o.tid)) ∧
    (∀ (orders : List BSE1.BOrder) (o : BSE1.BOrder),
       (orders.map (fun x => x.tid)).Nodup →
         ((BSE1.book_add orders o).1.map (fun x => x.tid)).Nodup ∧
         ((BSE1.book_del orders o).map (fun x => x.tid)).Nodup ∧
         (∀ side, ((BSE1.delete_best side orders).map (fun x => x.tid)).Nodup)) := by
  constructor
  · intro orders o
    by_cases hc : orders.any (fun x => x.tid = o.tid) = true
    · have hex : ∃ x ∈ orders, x.tid = o.tid := by
        rcases List.any_eq_true.mp hc with ⟨x, hx, hxt⟩
        exact ⟨x, hx, by simpa using hxt⟩
      have hlen : (BSE1.dictInsert orders o).length = orders.length := by
        unfold BSE1.dictInsert
        rw [if_pos hc, List.length_map]
      have hresp : (BSE1.book_add orders o).2 = .Overwrite := by
        unfold BSE1.book_add
        dsimp only
        rw [if_neg (by rw [hlen]; exact fun hne => hne rfl)]
      constructor
      · rw [hresp]
        simp only [iff_iff_implies_and_implies]
        exact ⟨fun hab => absurd hab (by simp), fun hno => absurd hex hno⟩
      · rw [hresp]
        simp only [true_iff]
        exact hex
    · have hnex : ¬ ∃ x ∈ orders, x.tid = o.tid := by
        intro ⟨x, hx, hxt⟩
        exact hc (List.any_eq_true.mpr ⟨x, hx, by simpa using hxt⟩)
      have hlen : (BSE1.dictInsert orders o).length = orders.length + 1 := by
        unfold BSE1.dictInsert
        rw [if_neg hc, List.length_append]
        rfl
      have hresp : (BSE1.book_add orders o).2 = .Addition := by
        unfold BSE1.book_add
        dsimp only
        rw [if_pos (by rw [hlen]; omega)]
      constructor
      · rw [hresp]
        simp only [true_iff]
        exact hnex
      · rw [hresp]
        simp only [iff_iff_implies_and_implies]
        exact ⟨fun hab => absurd hab (by simp), fun hex => absurd hex hnex⟩
  · intro orders o hnd
    refine ⟨?_, ?_, ?_⟩
    · show ((BSE1.dictInsert orders o).map (fun x => x.tid)).Nodup
      by_cases hc : orders.any (fun x => x.tid = o.tid) = true
      · rw [BSE1.dictInsert_tid_map hc]
        exact hnd
      · unfold BSE1.dictInsert
        rw [if_neg hc, List.map_append]
        rw [List.nodup_append]
        refine ⟨hnd, List.nodup_singleton _, ?_⟩
        intro a ha hb
        rcases List.mem_singleton.mp hb with rfl
        rcases List.mem_map.mp ha with ⟨x, hx, hxt⟩
        exact hc (List.any_eq_true.mpr ⟨x, hx, by simpa using hxt⟩)
    · unfold BSE1.book_del
      split
      · exact ((List.filter_sublist orders).map (fun x => x.tid)).nodup hnd
      · exact hnd
    · intro side
      unfold BSE1.delete_best
      split
      · exact hnd
      · split
        · exact ((List.filter_sublist orders).map (fun x => x.tid)).nodup hnd
        · exact hnd

/-- Witness for C10: adding a bid from trader 5 to a book where trader 5
already rests returns Overwrite; adding it to a book holding only trader 6
returns Addition; nodup trader ids are preserved. -/
theorem C10_one_order_per_trader_witness :
    ((BSE1.book_add [⟨5, .Bid, 90, 1, 1, 0⟩] ⟨5, .Bid, 95, 1, 2, 1⟩).2 = .Overwrite ∧
     (BSE1.book_add [⟨6, .Bid, 90, 1, 1, 0⟩] ⟨5, .Bid, 95, 1, 2, 1⟩).2 = .Addition) ∧
    ((BSE1.book_add [⟨6, .Bid, 90, 1, 1, 0⟩] ⟨5, .Bid, 95, 1, 2, 1⟩).1.map
        (fun x => x.tid)).Nodup := by
  refine ⟨⟨?_, ?_⟩, ?_⟩
  · exact (C10_one_order_per_trader.1 [⟨5, .Bid, 90, 1, 1, 0⟩]
      ⟨5, .Bid, 95, 1, 2, 1⟩).2.mpr ⟨⟨5, .Bid, 90, 1, 1, 0⟩, by simp⟩
  · exact (C10_one_order_per_trader.1 [⟨6, .Bid, 90, 1, 1, 0⟩]
      ⟨5, .Bid, 95, 1, 2, 1⟩).1.mpr (by decide)
  · exact ((C10_one_order_per_trader.2 [⟨6, .Bid, 90, 1, 1, 0⟩]
      ⟨5, .Bid, 95, 1, 2, 1⟩) (by decide)).1
